import Mathlib

/-!
Verification of the jsonpatch2 library (RFC 6902 JSON Patch / RFC 6901
JSON Pointer implementation in Go).

Part 1 is a pure (extensional) embedding of the value model and of the
functions in `pointer.go` (src/unnamed/part_000), `patch.go` and
`generate.go` (src/unnamed/part_001).  Go's unmarshalled JSON
(`interface{}` holding nil / bool / float64 / string / []interface{} /
map[string]interface{}) is the inductive `JSON`; Go's in-place mutation
of maps and slices, together with the explicit propagation of re-allocated
slices through `handleChangedSlice`, is rendered as the structural rebuild
of every container on the path from the mutated container back to the
root, which is the extensional effect of the Go code on the document that
the caller observes.

Part 2 (further below) is a store-passing embedding of the same
operations used for the aliasing / frame claims, where maps and slices
live in an explicit heap of cells.
-/

namespace Jsonpatch

/-- The unmarshalled JSON value model: Go `interface{}` after
`encoding/json.Unmarshal`.  Go represents JSON null as the nil interface,
numbers as float64 (numeric precision is irrelevant to every claim, so the
scalar carrier is `Int`), arrays as `[]interface{}` and objects as
`map[string]interface{}` (keys unique; iteration order of the embedding is
the field-list order). -/
inductive JSON where
  | null
  | bool (b : Bool)
  | num (n : Int)
  | str (s : String)
  | arr (elems : List JSON)
  | obj (fields : List (String × JSON))

/-- The tag `reflect.TypeOf` exposes: two values have equal kinds iff their
Go dynamic types are equal (`reflect.TypeOf(nil) = nil` makes null its own
kind). -/
def kind : JSON → Nat
  | .null => 0
  | .bool _ => 1
  | .num _ => 2
  | .str _ => 3
  | .arr _ => 4
  | .obj _ => 5

/-- Association-list lookup, mirroring Go map indexing `t[selector]`. -/
def lookupField (k : String) : List (String × JSON) → Option JSON
  | [] => none
  | (k', v) :: rest => if k' = k then some v else lookupField k rest

/-- Go map assignment `t[k] = v`: overwrite the binding if the key is
present, otherwise add it. -/
def setField (k : String) (v : JSON) : List (String × JSON) → List (String × JSON)
  | [] => [(k, v)]
  | (k', v') :: rest => if k' = k then (k, v) :: rest else (k', v') :: setField k v rest

/-- Go `delete(t, k)`. -/
def delField (k : String) : List (String × JSON) → List (String × JSON)
  | [] => []
  | (k', v') :: rest => if k' = k then rest else (k', v') :: delField k rest

mutual
/-- `reflect.DeepEqual` on unmarshalled JSON values: same dynamic type,
equal scalars, same-length slices with pairwise deep-equal elements,
same-size maps in which every key of the first is bound in the second to a
deep-equal value. -/
def deepEqual : JSON → JSON → Bool
  | .null, .null => true
  | .bool a, .bool b => a = b
  | .num a, .num b => a = b
  | .str a, .str b => a = b
  | .arr xs, .arr ys => deepEqualList xs ys
  | .obj xs, .obj ys => xs.length = ys.length && deepEqualFields xs ys
  | _, _ => false

def deepEqualList : List JSON → List JSON → Bool
  | [], [] => true
  | x :: xs, y :: ys => deepEqual x y && deepEqualList xs ys
  | _, _ => false

def deepEqualFields : List (String × JSON) → List (String × JSON) → Bool
  | [], _ => true
  | (k, v) :: rest, ys =>
    (match lookupField k ys with
     | some v' => deepEqual v v'
     | none => false) && deepEqualFields rest ys
end

/-- Modelled from the spec: `utils.Clone` (package utils, whose source is
not under src/) deep-clones a Value so that no container is shared with
the original.  On the pure value model a deep clone denotes the identical
value, so it is the identity; the aliasing content of cloning is modelled
in the heap embedding of Part 2. -/
def clone (v : JSON) : JSON := v

/-- Error kinds, one constructor per distinct `fmt.Errorf` site of the
source (plus `cloneDepth`, an artifact of the fuelled clone in Part 2). -/
inductive JErr where
  | illegalEscape
  | pointerStart
  | selectorNotFound
  | atoiError
  | indexOutOfBounds
  | notIndexable
  | replaceMissing
  | putNonIndexable
  | removeMissing
  | removeNonIndexable
  | cannotHappen
  | testFailed
  | invalidOp
  | valueRequired
  | fromRequired
  | cloneDepth
  | danglingRef
deriving DecidableEq, Repr

/-- One simultaneous left-to-right pass of
`strings.NewReplacer("~1", "/", "~0", "~")`: each `~1` / `~0` is consumed
as an atomic two-character unit. -/
def decodeSeg : List Char → List Char
  | [] => []
  | [c] => [c]
  | c :: c2 :: rest =>
    if c = '~' ∧ c2 = '0' then '~' :: decodeSeg rest
    else if c = '~' ∧ c2 = '1' then '/' :: decodeSeg rest
    else c :: decodeSeg (c2 :: rest)

/-- One simultaneous left-to-right pass of
`strings.NewReplacer("~", "~0", "/", "~1")` (the two patterns start with
distinct characters, so the simultaneous pass agrees with the sequential
"escape ~ first, then /" description). -/
def encodeSeg : List Char → List Char
  | [] => []
  | c :: rest =>
    if c = '~' then '~' :: '0' :: encodeSeg rest
    else if c = '/' then '~' :: '1' :: encodeSeg rest
    else c :: encodeSeg rest

/-- The validity scan of `newSegment`: splitting on `~` and requiring every
later piece to start with `0` or `1` is exactly the condition that every
`~` in the string is immediately followed by `0` or `1` (the second
character of a consumed pair is `0` or `1`, never `~`, so every `~` is
eventually examined at the head). -/
def validSeg : List Char → Bool
  | [] => true
  | [c] => if c = '~' then false else true
  | c :: c2 :: rest =>
    if c = '~' then
      if c2 = '0' ∨ c2 = '1' then validSeg rest else false
    else validSeg (c2 :: rest)

/-- `strings.Split` on `/` (the splitter never returns an empty list). -/
def splitSlash : List Char → List (List Char)
  | [] => [[]]
  | c :: rest =>
    if c = '/' then [] :: splitSlash rest
    else
      match splitSlash rest with
      | s :: ss => (c :: s) :: ss
      | [] => [[c]]

/-- `strings.Join` with separator `/`. -/
def joinSlash : List (List Char) → List Char
  | [] => []
  | [s] => s
  | s :: s2 :: ss => s ++ '/' :: joinSlash (s2 :: ss)

/-- A JSON Pointer: the sequence of raw (already unescaped) reference
tokens, Go's `Pointer []pointerSegment`. -/
abbrev Pointer := List String

/-- `newSegment`: validity scan, then the decoding pass. -/
def newSegment (frag : List Char) : Except JErr String :=
  if validSeg frag then .ok (String.mk (decodeSeg frag)) else .error .illegalEscape

/-- The fragment loop of `NewPointer`: unescape each fragment in order,
aborting at the first illegal escape. -/
def newSegments : List (List Char) → Except JErr (List String)
  | [] => .ok []
  | f :: rest =>
    match newSegment f with
    | .error e => .error e
    | .ok seg =>
      match newSegments rest with
      | .error e => .error e
      | .ok segs => .ok (seg :: segs)

/-- `NewPointer`: the empty text is the empty pointer; any other text must
start with `/` and is split on `/` (dropping the leading empty fragment),
each fragment unescaped by `newSegment`. -/
def NewPointer (s : String) : Except JErr Pointer :=
  match s.data with
  | [] => .ok ([] : List String)
  | '/' :: rest => newSegments (splitSlash rest)
  | _ => .error .pointerStart

/-- `Pointer.String`: re-encode every segment and join with `/`, with a
leading empty fragment so that a nonempty pointer starts with `/`. -/
def ptrToString (p : Pointer) : String :=
  String.mk (joinSlash ([] :: (p : List String).map fun seg => encodeSeg seg.data))

/-- `strconv.Atoi`: optional sign followed by at least one decimal digit
(Go's int-range overflow check is irrelevant at the sizes any claim
touches and is not modelled). -/
def parseDigits : List Char → Except JErr Nat
  | [] => .error .atoiError
  | ds => parseDigitsAux 0 ds
where
  parseDigitsAux (acc : Nat) : List Char → Except JErr Nat
    | [] => .ok acc
    | c :: rest =>
      if '0' ≤ c ∧ c ≤ '9' then parseDigitsAux (acc * 10 + (c.toNat - '0'.toNat)) rest
      else .error .atoiError

def parseInt (s : String) : Except JErr Int :=
  match s.data with
  | '+' :: ds => (parseDigits ds).map fun n => (n : Int)
  | '-' :: ds => (parseDigits ds).map fun n => -(n : Int)
  | ds => (parseDigits ds).map fun n => (n : Int)

/-- `normalizeOffset`: parse the selector with Atoi, add the bound to a
negative offset, then reject results outside `[0, bound)`. -/
def normalizeOffset (selector : String) (bound : Nat) : Except JErr Nat :=
  match parseInt selector with
  | .error e => .error e
  | .ok res₀ =>
    let res : Int := if res₀ < 0 then (bound : Int) + res₀ else res₀
    if (bound : Int) ≤ res ∨ res < 0 then .error .indexOutOfBounds else .ok res.toNat

/-- `Pointer.Get`: walk the tokens from the root; a token is a map key at
an object (absence is an error), a normalized offset at an array, and an
error at a scalar. -/
def Get : Pointer → JSON → Except JErr JSON
  | [], doc => .ok doc
  | selector :: rest, doc =>
    match doc with
    | .obj fields =>
      match lookupField selector fields with
      | some found => Get rest found
      | none => .error .selectorNotFound
    | .arr elems =>
      match normalizeOffset selector elems.length with
      | .error e => .error e
      | .ok idx => Get rest (elems.getD idx .null)
    | _ => .error .notIndexable

/-- Navigate to the container at pointer `p` exactly as `Get` does, apply
`f` to it, and rebuild the ancestors on success.  This is the extensional
reading of the Go pattern `toContainer` + in-place container mutation +
`handleChangedSlice` root propagation: mutating the container reached by a
path is observed from the root as the same document with that subtree
replaced.  Failure (either during navigation, with `Get`'s error, or
inside `f`) leaves the document unchanged, as the Go functions return the
original root alongside the error. -/
def modifyAt : Pointer → JSON → (JSON → JSON × Option JErr) → JSON × Option JErr
  | [], doc, f => f doc
  | selector :: rest, doc, f =>
    match doc with
    | .obj fields =>
      match lookupField selector fields with
      | some found =>
        match modifyAt rest found f with
        | (_, some e) => (.obj fields, some e)
        | (found', none) => (.obj (setField selector found' fields), none)
      | none => (.obj fields, some .selectorNotFound)
    | .arr elems =>
      match normalizeOffset selector elems.length with
      | .error e => (.arr elems, some e)
      | .ok idx =>
        match modifyAt rest (elems.getD idx .null) f with
        | (_, some e) => (.arr elems, some e)
        | (found', none) => (.arr (elems.set idx found'), none)
    | doc => (doc, some .notIndexable)

/-- `Pointer.Replace`: the empty pointer replaces the whole document;
otherwise the parent container of the last token is located as in
`toContainer` and the addressed slot, which must already exist, is
overwritten. -/
def Replace (p : Pointer) (toDoc : JSON) (val : JSON) : JSON × Option JErr :=
  match p with
  | [] => (val, none)
  | _ =>
    let selector := (p : List String).getLast!
    modifyAt ((p : List String).dropLast) toDoc fun container =>
      match container with
      | .obj fields =>
        match lookupField selector fields with
        | some _ => (.obj (setField selector val fields), none)
        | none => (.obj fields, some .replaceMissing)
      | .arr elems =>
        match normalizeOffset selector elems.length with
        | .error e => (.arr elems, some e)
        | .ok idx => (.arr (elems.set idx val), none)
      | other => (other, some .putNonIndexable)

/-- List insertion before index `idx`: the `make` / `copy` / `copy` block
of `Pointer.Put`'s array case. -/
def insertIdx (idx : Nat) (val : JSON) (elems : List JSON) : List JSON :=
  elems.take idx ++ val :: elems.drop idx

/-- `Pointer.Put` (the add primitive): an empty pointer hits
`toContainer`'s `Cannot happen` error; a map key is set unconditionally; a
final array token of `-` appends, any other array token is a normalized
offset in `[0, length)` (the bound check of `normalizeOffset` — offset
equal to the length is rejected) before which `val` is inserted; the
re-allocated array is propagated to the root (`handleChangedSlice`), which
the structural rebuild of `modifyAt` performs. -/
def Put (p : Pointer) (toDoc : JSON) (val : JSON) : JSON × Option JErr :=
  match p with
  | [] => (toDoc, some .cannotHappen)
  | _ =>
    let selector := (p : List String).getLast!
    modifyAt ((p : List String).dropLast) toDoc fun container =>
      match container with
      | .obj fields => (.obj (setField selector val fields), none)
      | .arr elems =>
        if selector = "-" then (.arr (elems ++ [val]), none)
        else
          match normalizeOffset selector elems.length with
          | .error e => (.arr elems, some e)
          | .ok idx => (.arr (insertIdx idx val elems), none)
      | other => (other, some .putNonIndexable)

/-- `Pointer.Remove`: an empty pointer hits `toContainer`'s `Cannot
happen` error; a map key must exist and is deleted; an array token is a
normalized in-bounds offset whose element is removed, shifting the rest
down, with the shrunk array propagated to the root. -/
def Remove (p : Pointer) (fromDoc : JSON) : JSON × Option JErr :=
  match p with
  | [] => (fromDoc, some .cannotHappen)
  | _ =>
    let selector := (p : List String).getLast!
    modifyAt ((p : List String).dropLast) fromDoc fun container =>
      match container with
      | .obj fields =>
        match lookupField selector fields with
        | some _ => (.obj (delField selector fields), none)
        | none => (.obj fields, some .removeMissing)
      | .arr elems =>
        match normalizeOffset selector elems.length with
        | .error e => (.arr elems, some e)
        | .ok idx => (.arr (elems.eraseIdx idx), none)
      | other => (other, some .removeNonIndexable)

/-- `Pointer.Copy`: read the source value, deep-clone it, `Put` the clone
at `at`. -/
def CopyOp (p : Pointer) (fromDoc : JSON) (at' : Pointer) : JSON × Option JErr :=
  match Get p fromDoc with
  | .error e => (fromDoc, some e)
  | .ok val => Put at' fromDoc (clone val)

/-- `Pointer.Move`: read the source value, `Put` it at `at`, then `Remove`
the source from the result; a failing `Put` returns its own (unchanged)
root, and a failing `Remove` returns the root as left by the `Put`. -/
def Move (p : Pointer) (fromDoc : JSON) (at' : Pointer) : JSON × Option JErr :=
  match Get p fromDoc with
  | .error e => (fromDoc, some e)
  | .ok val =>
    match Put at' fromDoc val with
    | (val', some e) => (val', some e)
    | (val', none) => Remove p val'

/-- `Pointer.Test`: resolve, then compare deep-equal with the sample. -/
def Test (p : Pointer) (fromDoc : JSON) (sample : JSON) : Option JErr :=
  match Get p fromDoc with
  | .error e => some e
  | .ok val => if deepEqual val sample then none else some .testFailed

/-- An RFC 6902 operation as `patch.go` holds it after unmarshalling: the
wire fields `Op` / `Path` / `From` / `Value` (a present-but-null `value`
and an absent one both unmarshal to the nil interface, i.e. `JSON.null`)
plus the pre-parsed pointers; `fromPtr` is `none` when the unexported
`from` slice is nil (only `copy` / `move` parse it), and a nil Go slice
ranges like an empty one, so appliers read it as the empty pointer. -/
structure Operation where
  op : String
  pathStr : String
  fromStr : String
  value : JSON
  path : Pointer
  fromPtr : Option Pointer

/-- `Operation.apply`: dispatch on the op name to the pointer primitive. -/
def Operation.applyOp (o : Operation) (toDoc : JSON) : JSON × Option JErr :=
  match o.op with
  | "test" => (toDoc, Test o.path toDoc o.value)
  | "replace" => Replace o.path toDoc o.value
  | "add" => Put o.path toDoc o.value
  | "remove" => Remove o.path toDoc
  | "move" => Move (o.fromPtr.getD ([] : List String)) toDoc o.path
  | "copy" => CopyOp (o.fromPtr.getD ([] : List String)) toDoc o.path
  | _ => (toDoc, some .invalidOp)

/-- A Patch is an ordered list of Operations. -/
abbrev Patch := List Operation

/-- The indexed application loop of `Patch.apply`: clone the base, then
run each operation in order on the working root, stopping at the first
failure with that operation's result document, its error and its index;
on full success the reported index is the Go function's literal `0`. -/
def applyLoop : List Operation → JSON → Nat → JSON × Option JErr × Nat
  | [], result, _ => (result, none, 0)
  | o :: rest, result, i =>
    match o.applyOp result with
    | (result', some e) => (result', some e, i)
    | (result', none) => applyLoop rest result' (i + 1)

def Patch.applyP (p : Patch) (base : JSON) : JSON × Option JErr × Nat :=
  applyLoop p (clone base) 0

/-- One entry of a patch document before pointer parsing: the four wire
fields as `Operation.UnmarshalJSON` receives them from `encoding/json`
(raw text decoding itself is the external decode primitive). -/
structure RawOp where
  Op : String
  Path : String
  From : String
  Value : JSON

/-- Nil-interface test `op.Value == nil` (JSON null and an absent field
both unmarshal to the nil interface). -/
def isNull : JSON → Bool
  | .null => true
  | _ => false

/-- `Operation.UnmarshalJSON` after the inner field decode: parse `Path`,
and for `copy` / `move` (a Go switch on strings, i.e. sequential string
equality tests) also parse `From`; any pointer parse error aborts. -/
def unmarshalOp (r : RawOp) : Except JErr Operation :=
  match NewPointer r.Path with
  | .error e => .error e
  | .ok path =>
    if r.Op = "copy" ∨ r.Op = "move" then
      match NewPointer r.From with
      | .error e => .error e
      | .ok f => .ok ⟨r.Op, r.Path, r.From, r.Value, path, some f⟩
    else .ok ⟨r.Op, r.Path, r.From, r.Value, path, none⟩

/-- The validation loop of `NewPatch` over the unmarshalled operations
(the `op.path == nil` guard of the Go loop cannot fire once every
element's `UnmarshalJSON` has succeeded, since `newPointer` never returns
a nil slice without an error, so it has no counterpart here): `test` /
`replace` / `add` need a non-nil value, `move` / `copy` a non-nil from,
`remove` needs nothing, and any other name is invalid. -/
def checkOps : List Operation → Except JErr Unit
  | [] => .ok ()
  | o :: rest =>
    if o.op = "test" ∨ o.op = "replace" ∨ o.op = "add" then
      if isNull o.value then .error .valueRequired else checkOps rest
    else if o.op = "move" ∨ o.op = "copy" then
      match o.fromPtr with
      | none => .error .fromRequired
      | some _ => checkOps rest
    else if o.op = "remove" then checkOps rest
    else .error .invalidOp

/-- The element loop of `json.Unmarshal` into a `[]Operation`: unmarshal
each entry in order, aborting at the first failure. -/
def unmarshalOps : List RawOp → Except JErr (List Operation)
  | [] => .ok []
  | r :: rest =>
    match unmarshalOp r with
    | .error e => .error e
    | .ok o =>
      match unmarshalOps rest with
      | .error e => .error e
      | .ok os => .ok (o :: os)

/-- `NewPatch` on an already text-decoded list of entries: unmarshal every
entry (pointer parsing included), then run the validation loop. -/
def NewPatch (raws : List RawOp) : Except JErr Patch :=
  match unmarshalOps raws with
  | .error e => .error e
  | .ok ops =>
    match checkOps ops with
    | .error e => .error e
    | .ok _ => .ok ops

/-- `Pointer.Append`: note that the Go code pushes `decode.Replace(frag)`,
i.e. it runs the `~1` / `~0` unescaping pass over the raw fragment it is
handed, although its caller `basicGen` passes raw (unescaped) map keys. -/
def goAppend (p : Pointer) (frag : String) : Pointer :=
  (p : List String) ++ [String.mk (decodeSeg frag.data)]

/-- Build the operations `basicGen` emits (`Operation{op, pstr, "", v,
ptr, nil}`). -/
def mkGenOp (opName : String) (ptr : Pointer) (v : JSON) : Operation :=
  ⟨opName, ptrToString ptr, "", v, ptr, none⟩

mutual
/-- `basicGen` of src/unnamed/part_001.  A firing `pretest` emits one
whole-document `test` at the front and sets both `paranoid` and `pretest`
to false for the remainder of the invocation (recursive calls therefore
always receive `pretest = false`, the local flag after the block).  Then:
a `reflect.TypeOf` mismatch emits a (possibly paranoid-guarded)
whole-subtree replace; two objects are diffed field-wise (removals and
recursions over the base fields in order via `basicGenObj`, then
additions over the target fields not keyed in the base); everything else —
arrays included, the slice case is commented out in the source — is a
deep-equality check emitting one guarded replace. -/
def basicGen (base target : JSON) (paranoid pretest : Bool) (ptr : Pointer) : List Operation :=
  let paranoid := if pretest then false else paranoid
  (if pretest then [mkGenOp "test" ptr (clone base)] else []) ++
    (if kind base ≠ kind target then
      (if paranoid then [mkGenOp "test" ptr (clone base)] else []) ++
        [mkGenOp "replace" ptr (clone target)]
    else
      match base, target with
      | .obj baseFields, .obj targetFields =>
        basicGenObj baseFields targetFields paranoid ptr ++
          ((targetFields.filter fun kv => (lookupField kv.1 baseFields).isNone).map fun kv =>
            mkGenOp "add" (goAppend ptr kv.1) (clone kv.2))
      | b, t =>
        if deepEqual b t then []
        else
          (if paranoid then [mkGenOp "test" ptr (clone b)] else []) ++
            [mkGenOp "replace" ptr (clone t)])

/-- Pass 1 of the object case: for each base field in order, emit a
(guarded) remove when the key left the target, otherwise recurse into the
common key.  `handled` ends up being exactly the base key set, which the
additions filter of `basicGen` consults via `lookupField`. -/
def basicGenObj (baseFields targetFields : List (String × JSON)) (paranoid : Bool)
    (ptr : Pointer) : List Operation :=
  match baseFields with
  | [] => []
  | (k, oldVal) :: rest =>
    (match lookupField k targetFields with
     | none =>
       (if paranoid then [mkGenOp "test" (goAppend ptr k) (clone oldVal)] else []) ++
         [mkGenOp "remove" (goAppend ptr k) .null]
     | some newVal => basicGen oldVal newVal paranoid false (goAppend ptr k)) ++
      basicGenObj rest targetFields paranoid ptr
end

/-- `GenerateFull` after the external JSON decode of its two arguments:
run `basicGen` from the empty pointer. -/
def GenerateFull (rawBase rawTarget : JSON) (paranoid pretest : Bool) : Patch :=
  basicGen rawBase rawTarget paranoid pretest ([] : List String)

/-! ### Concrete documents and operations used by the claim theorems -/

/-- The array `["bar",5]` of the negative-indexing claims. -/
def barFive : JSON := .arr [.str "bar", .num 5]

/-- The operation `{"op":"move","from":"/a/b","path":"/a"}`. -/
def moveAbToA : Operation := ⟨"move", "/a", "/a/b", .null, ["a"], some ["a", "b"]⟩

/-! ### C9: Put and Remove at the empty pointer -/

/-- C9: `Put` (the add primitive) and `Remove` invoked with the empty
pointer always fail — their shared `toContainer` helper rejects an empty
pointer with its `Cannot happen` error — and hand back the document
unchanged, whereas `Replace` with the empty pointer succeeds and replaces
the whole document; an add or remove at path `""` can therefore never
succeed. -/
theorem put_remove_empty_pointer (doc val : JSON) :
    Put ([] : Pointer) doc val = (doc, some .cannotHappen) ∧
    Remove ([] : Pointer) doc = (doc, some .cannotHappen) ∧
    Replace ([] : Pointer) doc val = (val, none) :=
  ⟨rfl, rfl, rfl⟩

/-! ### C3: negative indexing -/

/-- C3 counterexample: on `["bar",5]` the pointer with single token `-2`
does not fail at all — `normalizeOffset` turns `-2` into `2 + (-2) = 0`,
which passes the bounds check — so `Get` resolves it to `"bar"` instead of
returning the claimed `IndexOutOfBounds` error. -/
theorem get_minus_two_resolves :
    NewPointer "/-2" = .ok ["-2"] ∧
    Get ["-2"] barFive = .ok (.str "bar") ∧
    Get ["-2"] barFive ≠ .error .indexOutOfBounds := by
  refine ⟨rfl, rfl, ?_⟩
  intro h
  rw [show Get ["-2"] barFive = .ok (.str "bar") from rfl] at h
  exact Except.noConfusion h

/-- C3 amended: on `["bar",5]`, the pointer `/0` resolves to `"bar"`, the
token `-1` resolves to `5`, and `/2` fails with `IndexOutOfBounds`; the
token `-2`, however, resolves to `"bar"` (negative offsets count back from
the end, and `-2` normalizes to the in-bounds index `0`). -/
theorem get_negative_indexing :
    (NewPointer "/0").bind (Get · barFive) = .ok (.str "bar") ∧
    (NewPointer "/-1").bind (Get · barFive) = .ok (.num 5) ∧
    (NewPointer "/2").bind (Get · barFive) = .error .indexOutOfBounds ∧
    (NewPointer "/-2").bind (Get · barFive) = .ok (.str "bar") :=
  ⟨rfl, rfl, rfl, rfl⟩

/-! ### C4: Put on arrays -/

/-- C4: the code disagrees with the claim (and RFC 6902) at a final token
equal to the array length.  `Put` with `-` appends, and a normalized index
strictly below the length inserts before that index, but the token `2` on
the two-element `["bar",5]` is rejected by `normalizeOffset`'s
`res >= bound` check with `IndexOutOfBounds` instead of inserting at the
end. -/
theorem put_index_eq_length_rejected :
    Put ["-"] barFive (.num 6) = (.arr [.str "bar", .num 5, .num 6], none) ∧
    Put ["1"] barFive (.num 6) = (.arr [.str "bar", .num 6, .num 5], none) ∧
    Put ["0"] barFive (.num 6) = (.arr [.num 6, .str "bar", .num 5], none) ∧
    Put ["2"] barFive (.num 6) = (barFive, some .indexOutOfBounds) :=
  ⟨rfl, rfl, rfl, rfl⟩

/-! ### C1: generate-then-apply -/

/-- C1: a counterexample to `apply(generate(B, T, false, false), B) == T`.
With base `{}` and target `{"~0":5}`, the generator's addition pass calls
`Pointer.Append` on the raw map key `"~0"`, and `Append` runs the `~0`/`~1`
unescaping pass over it, so the emitted add operation's pointer addresses
the key `"~"`; applying the generated patch to `{}` therefore produces
`{"~":5}`, which is not deep-equal to the target `{"~0":5}`. -/
theorem generate_apply_tilde_key :
    Patch.applyP (GenerateFull (.obj []) (.obj [("~0", .num 5)]) false false) (.obj []) =
      (.obj [("~", .num 5)], none, 0) ∧
    deepEqual (.obj [("~", .num 5)]) (.obj [("~0", .num 5)]) = false :=
  ⟨rfl, rfl⟩

/-! ### C7: pretest -/

/-- C7 counterexample: with `paranoid = true`, the output under
`pretest = true` is not the pretest operation followed by the
`pretest = false` output, because the pretest block also clears
`paranoid`: on base `5`, target `6` the left side is
`[test "", replace ""]` while the right side is
`[test "", test "", replace ""]`. -/
theorem pretest_not_prepend_of_paranoid :
    basicGen (.num 5) (.num 6) true true ([] : Pointer) ≠
      mkGenOp "test" ([] : Pointer) (clone (.num 5)) ::
        basicGen (.num 5) (.num 6) true false ([] : Pointer) := by
  intro h
  have h2 : (2 : Nat) = 3 := congrArg List.length h
  simp at h2

/-- C7 amended: a firing `pretest` emits exactly one whole-document `test`
operation at the very start, never recurs (the flag is cleared before any
recursive call), and the remainder of the output is the patch generated
with `pretest` unset *and* `paranoid` unset — the pretest block clears
both flags for the rest of the generation. -/
theorem basicGen_pretest (base target : JSON) (paranoid : Bool) (ptr : Pointer) :
    basicGen base target paranoid true ptr =
      mkGenOp "test" ptr (clone base) :: basicGen base target false false ptr := by
  rw [basicGen.eq_def, basicGen.eq_def]
  simp

/-! ### C2: failure behavior of the application loop -/

/-- Successful application of a list of operations in order, used to
state which document the application loop has built when it reaches a
given operation. -/
def runOk : List Operation → JSON → Option JSON
  | [], d => some d
  | o :: rest, d =>
    match o.applyOp d with
    | (_, some _) => none
    | (d', none) => runOk rest d'

theorem applyLoop_failure : ∀ (ops : List Operation) (d res : JSON) (e : JErr) (n i : Nat),
    applyLoop ops d n = (res, some e, i) →
    n ≤ i ∧ i - n < ops.length ∧
    ∃ d' o, runOk (ops.take (i - n)) d = some d' ∧
      ops[i - n]? = some o ∧ o.applyOp d' = (res, some e) := by
  intro ops
  induction ops with
  | nil =>
    intro d res e n i h
    simp [applyLoop] at h
  | cons o rest ih =>
    intro d res e n i h
    rw [applyLoop] at h
    cases happ : o.applyOp d with
    | mk d1 e1 =>
      rw [happ] at h
      cases e1 with
      | some e2 =>
        obtain ⟨hres, he, hi⟩ : d1 = res ∧ some e2 = some e ∧ n = i := by
          simpa using h
        subst hres hi
        refine ⟨le_refl n, by simp, d, o, by simp [runOk], by simp, ?_⟩
        rw [happ, he]
      | none =>
        obtain ⟨hn, hlt, d', o', h1, h2, h3⟩ := ih d1 res e (n + 1) i h
        have hin : i - n = (i - (n + 1)) + 1 := by omega
        refine ⟨by omega, by simp; omega, d', o', ?_, ?_, h3⟩
        · rw [hin, List.take_succ_cons, runOk, happ]
          exact h1
        · rw [hin]
          simpa using h2

/-- C2 amended: when application fails, `Patch.apply` stops at the first
failing operation and returns its zero-based index `i` and its error,
together with the document value *produced by the failing operation
itself* — the working root after the `i` successful operations before it,
as possibly further modified by the partially-executed failing operation
(a `move` whose `Put` step succeeded before its `Remove` step failed
returns the half-moved document, not the pre-operation working root). -/
theorem applyP_failure (p : Patch) (base res : JSON) (e : JErr) (i : Nat)
    (h : Patch.applyP p base = (res, some e, i)) :
    i < p.length ∧
    ∃ d o, runOk (p.take i) (clone base) = some d ∧
      p[i]? = some o ∧ o.applyOp d = (res, some e) := by
  have := applyLoop_failure p (clone base) res e 0 i h
  simpa using this

/-- C2 counterexample: applying the single-operation patch
`[move from /a/b path /a]` to `{"a":{"b":5}}`, the `Put` step of the move
succeeds (producing `{"a":5}`) and its `Remove` step then fails, so
`Patch.apply` returns `{"a":5}` — not the claimed working root after the
operations before the failing one, which is the untouched clone
`{"a":{"b":5}}`. -/
theorem applyP_failure_keeps_failing_op_effect :
    Patch.applyP [moveAbToA] (.obj [("a", .obj [("b", .num 5)])]) =
      (.obj [("a", .num 5)], some .removeNonIndexable, 0) ∧
    (JSON.obj [("a", .num 5)]) ≠ .obj [("a", .obj [("b", .num 5)])] := by
  refine ⟨rfl, ?_⟩
  simp

/-- Witness for `applyP_failure` at the move counterexample input. -/
theorem applyP_failure_witness :
    0 < ([moveAbToA] : Patch).length ∧
    ∃ d o, runOk (([moveAbToA] : Patch).take 0)
        (clone (.obj [("a", .obj [("b", .num 5)])])) = some d ∧
      ([moveAbToA] : Patch)[0]? = some o ∧
      o.applyOp d = (.obj [("a", .num 5)], some .removeNonIndexable) :=
  applyP_failure [moveAbToA] (.obj [("a", .obj [("b", .num 5)])])
    (.obj [("a", .num 5)]) .removeNonIndexable 0 rfl

/-! ### C10: NewPatch rejects null values for add, replace and test -/

theorem unmarshalOp_fields (r : RawOp) (o : Operation) (h : unmarshalOp r = .ok o) :
    o.op = r.Op ∧ o.value = r.Value := by
  unfold unmarshalOp at h
  cases hp : NewPointer r.Path with
  | error e => rw [hp] at h; exact Except.noConfusion h
  | ok path =>
    rw [hp] at h
    dsimp only at h
    by_cases hcm : r.Op = "copy" ∨ r.Op = "move"
    · rw [if_pos hcm] at h
      cases hf : NewPointer r.From with
      | error e => rw [hf] at h; exact Except.noConfusion h
      | ok f =>
        rw [hf] at h
        obtain rfl : (⟨r.Op, r.Path, r.From, r.Value, path, some f⟩ : Operation) = o := by
          simpa using h
        exact ⟨rfl, rfl⟩
    · rw [if_neg hcm] at h
      obtain rfl : (⟨r.Op, r.Path, r.From, r.Value, path, none⟩ : Operation) = o := by
        simpa using h
      exact ⟨rfl, rfl⟩

/-- A successful validation step validates the head and the tail. -/
theorem checkOps_cons (o : Operation) (rest : List Operation)
    (h : checkOps (o :: rest) = .ok ()) :
    checkOps rest = .ok () ∧
      ((o.op = "add" ∨ o.op = "replace" ∨ o.op = "test") → isNull o.value = false) := by
  rw [checkOps] at h
  by_cases h1 : o.op = "test" ∨ o.op = "replace" ∨ o.op = "add"
  · rw [if_pos h1] at h
    cases hn : isNull o.value with
    | true => rw [hn] at h; exact Except.noConfusion h
    | false => rw [hn] at h; exact ⟨h, fun _ => rfl⟩
  · rw [if_neg h1] at h
    by_cases h2 : o.op = "move" ∨ o.op = "copy"
    · rw [if_pos h2] at h
      cases hf : o.fromPtr with
      | none => rw [hf] at h; exact Except.noConfusion h
      | some f =>
        rw [hf] at h
        exact ⟨h, fun hc => absurd (by tauto : o.op = "test" ∨ o.op = "replace" ∨ o.op = "add") h1⟩
    · rw [if_neg h2] at h
      by_cases h3 : o.op = "remove"
      · rw [if_pos h3] at h
        refine ⟨h, fun hc => absurd ?_ h1⟩
        rcases hc with hx | hx | hx <;> rw [h3] at hx <;> exact absurd hx (by decide)
      · rw [if_neg h3] at h
        exact Except.noConfusion h

theorem checkOps_ok_no_null : ∀ (ops : List Operation), checkOps ops = .ok () →
    ∀ o ∈ ops, (o.op = "add" ∨ o.op = "replace" ∨ o.op = "test") → isNull o.value = false := by
  intro ops
  induction ops with
  | nil => intro _ o ho; simp at ho
  | cons o rest ih =>
    intro h o' ho' hop
    obtain ⟨htail, hhead⟩ := checkOps_cons o rest h
    rcases List.mem_cons.mp ho' with rfl | hmem
    · exact hhead hop
    · exact ih htail o' hmem hop

theorem unmarshalOps_mem : ∀ (raws : List RawOp) (ops : List Operation),
    unmarshalOps raws = .ok ops → ∀ r ∈ raws, ∃ o ∈ ops, unmarshalOp r = .ok o := by
  intro raws
  induction raws with
  | nil => intro ops _ r hr; simp at hr
  | cons r0 rest ih =>
    intro ops h r hr
    rw [unmarshalOps] at h
    cases h0 : unmarshalOp r0 with
    | error e => rw [h0] at h; exact Except.noConfusion h
    | ok o0 =>
      rw [h0] at h
      cases hrest : unmarshalOps rest with
      | error e => rw [hrest] at h; exact Except.noConfusion h
      | ok os =>
        rw [hrest] at h
        obtain rfl : o0 :: os = ops := by simpa using h
        rcases List.mem_cons.mp hr with rfl | hmem
        · exact ⟨o0, by simp, h0⟩
        · obtain ⟨o, ho, hu⟩ := ih os hrest r hmem
          exact ⟨o, by simp [ho], hu⟩

/-- C10: any patch document containing an `add`, `replace` or `test`
entry whose `value` field is JSON null (which unmarshals to the nil
interface, indistinguishable from an absent value) is rejected by
`NewPatch` with an error — either one of its pointers already fails to
parse, or the validation loop reports a missing value (or some earlier
entry's violation) — so a null value can never be carried through patch
construction. -/
theorem newPatch_rejects_null_value (raws : List RawOp)
    (h : ∃ r ∈ raws, (r.Op = "add" ∨ r.Op = "replace" ∨ r.Op = "test") ∧ r.Value = .null) :
    ∃ e, NewPatch raws = .error e := by
  obtain ⟨r, hr, hop, hval⟩ := h
  cases hm : unmarshalOps raws with
  | error e => exact ⟨e, by rw [NewPatch, hm]⟩
  | ok ops =>
    cases hc : checkOps ops with
    | error e =>
      refine ⟨e, ?_⟩
      rw [NewPatch, hm]
      dsimp only
      rw [hc]
    | ok u =>
      cases u
      obtain ⟨o, ho, hu⟩ := unmarshalOps_mem raws ops hm r hr
      obtain ⟨hop', hval'⟩ := unmarshalOp_fields r o hu
      have := checkOps_ok_no_null ops hc o ho
        (by rw [hop']; exact hop)
      rw [hval', hval] at this
      exact absurd this (by simp [isNull])

/-- Witness for `newPatch_rejects_null_value` on the one-entry patch
document with an `add` whose value is null. -/
theorem newPatch_rejects_null_value_witness :
    ∃ e, NewPatch [⟨"add", "/a", "", .null⟩] = .error e :=
  newPatch_rejects_null_value [⟨"add", "/a", "", .null⟩]
    ⟨⟨"add", "/a", "", .null⟩, by simp, Or.inl rfl, rfl⟩

/-! ### C6: pointer text round-trip -/

theorem splitSlash_ne_nil : ∀ cs : List Char, splitSlash cs ≠ [] := by
  intro cs
  cases cs with
  | nil => simp [splitSlash]
  | cons c rest =>
    rw [splitSlash]
    by_cases hc : c = '/'
    · simp [hc]
    · rw [if_neg hc]
      cases h : splitSlash rest <;> simp

theorem splitSlash_no_slash : ∀ cs : List Char, ∀ piece ∈ splitSlash cs, '/' ∉ piece := by
  intro cs
  induction cs with
  | nil => intro piece hp; simp [splitSlash] at hp; simp [hp]
  | cons c rest ih =>
    intro piece hp
    rw [splitSlash] at hp
    by_cases hc : c = '/'
    · rw [if_pos hc] at hp
      rcases List.mem_cons.mp hp with rfl | hmem
      · simp
      · exact ih piece hmem
    · rw [if_neg hc] at hp
      cases hs : splitSlash rest with
      | nil => exact absurd hs (splitSlash_ne_nil rest)
      | cons s ss =>
        rw [hs] at hp
        rcases List.mem_cons.mp hp with rfl | hmem
        · intro hmem2
          rcases List.mem_cons.mp hmem2 with h1 | h1
          · exact hc h1.symm
          · exact ih s (hs ▸ List.mem_cons_self s ss) h1
        · exact ih piece (hs ▸ List.mem_cons_of_mem s hmem)

theorem joinSlash_cons_char (c : Char) (s : List Char) (ss : List (List Char)) :
    joinSlash ((c :: s) :: ss) = c :: joinSlash (s :: ss) := by
  cases ss <;> simp [joinSlash]

theorem joinSlash_splitSlash : ∀ cs : List Char, joinSlash (splitSlash cs) = cs := by
  intro cs
  induction cs with
  | nil => rfl
  | cons c rest ih =>
    rw [splitSlash]
    by_cases hc : c = '/'
    · rw [if_pos hc]
      cases hs : splitSlash rest with
      | nil => exact absurd hs (splitSlash_ne_nil rest)
      | cons s ss =>
        rw [show joinSlash ([] :: s :: ss) = '/' :: joinSlash (s :: ss) from rfl, ← hs, ih, hc]
    · rw [if_neg hc]
      cases hs : splitSlash rest with
      | nil => exact absurd hs (splitSlash_ne_nil rest)
      | cons s ss =>
        rw [joinSlash_cons_char, ← hs, ih]

/-- Re-encoding undoes the unescaping pass on every valid, slash-free
fragment (fragments come from splitting on `/`, so they are slash-free;
validity is `newSegment`'s scan). -/
theorem encodeSeg_decodeSeg : ∀ cs : List Char, validSeg cs = true → '/' ∉ cs →
    encodeSeg (decodeSeg cs) = cs
  | [] => by intro _ _; rfl
  | [c] => by
    intro hv hns
    rw [validSeg] at hv
    rw [decodeSeg, encodeSeg]
    have hct : ¬ c = '~' := by
      intro h; rw [if_pos h] at hv; exact Bool.noConfusion hv
    have hcs : ¬ c = '/' := fun h => by simp [h] at hns
    rw [if_neg hct, if_neg hcs, encodeSeg]
  | c :: c2 :: rest => by
    intro hv hns
    have hns2 : '/' ∉ c2 :: rest := fun h => hns (List.mem_cons_of_mem c h)
    have hnsr : '/' ∉ rest := fun h => hns2 (List.mem_cons_of_mem c2 h)
    have hnsc : ¬ c = '/' := fun h => hns (h ▸ List.mem_cons_self c (c2 :: rest))
    rw [validSeg] at hv
    rw [decodeSeg]
    by_cases hc : c = '~'
    · rw [if_pos hc] at hv
      by_cases h01 : c2 = '0' ∨ c2 = '1'
      · rw [if_pos h01] at hv
        rcases h01 with h0 | h1
        · rw [if_pos ⟨hc, h0⟩, encodeSeg, if_pos rfl,
            encodeSeg_decodeSeg rest hv hnsr, hc, h0]
        · rw [if_neg (fun hp => by simp [h1] at hp), if_pos ⟨hc, h1⟩, encodeSeg,
            if_neg (by decide), if_pos rfl, encodeSeg_decodeSeg rest hv hnsr, hc, h1]
      · rw [if_neg h01] at hv
        exact Bool.noConfusion hv
    · rw [if_neg hc] at hv
      rw [if_neg (fun h => hc h.1), if_neg (fun h => hc h.1), encodeSeg,
        if_neg hc, if_neg hnsc, encodeSeg_decodeSeg (c2 :: rest) hv hns2]

theorem newSegments_ok : ∀ (l : List (List Char)) (segs : List String),
    newSegments l = .ok segs →
    segs = l.map (fun f => String.mk (decodeSeg f)) ∧ ∀ f ∈ l, validSeg f = true := by
  intro l
  induction l with
  | nil =>
    intro segs h
    obtain rfl : ([] : List String) = segs := Except.ok.inj h
    exact ⟨rfl, by simp⟩
  | cons f rest ih =>
    intro segs h
    rw [newSegments, newSegment] at h
    by_cases hv : validSeg f = true
    · rw [if_pos hv] at h
      cases hrest : newSegments rest with
      | error e => rw [hrest] at h; exact Except.noConfusion h
      | ok segs' =>
        rw [hrest] at h
        obtain rfl : String.mk (decodeSeg f) :: segs' = segs := by simpa using h
        obtain ⟨hmap, hvalid⟩ := ih segs' hrest
        refine ⟨by rw [List.map_cons, hmap], ?_⟩
        intro g hg
        rcases List.mem_cons.mp hg with rfl | hmem
        · exact hv
        · exact hvalid g hmem
    · rw [if_neg hv] at h
      exact Except.noConfusion h

/-- C6: for every pointer text that parses, serializing the parsed
pointer (canonical escaping: `~` as `~0` first, `/` as `~1`) reproduces
the text exactly. -/
theorem pointer_roundtrip (s : String) (p : Pointer) (h : NewPointer s = .ok p) :
    ptrToString p = s := by
  obtain ⟨cs⟩ := s
  cases cs with
  | nil =>
    obtain rfl : ([] : List String) = p := Except.ok.inj h
    rfl
  | cons c rest =>
    unfold NewPointer at h
    rw [show (String.mk (c :: rest)).data = c :: rest from rfl] at h
    split at h
    · rename_i heq
      exact absurd heq (by simp)
    · rename_i rest' heq
      obtain ⟨rfl, rfl⟩ : c = '/' ∧ rest = rest' := by
        refine ⟨?_, ?_⟩ <;> injection heq
      obtain ⟨hmap, hvalid⟩ := newSegments_ok (splitSlash rest) p h
      rw [ptrToString, hmap, List.map_map]
      have hcong :
          (splitSlash rest).map ((fun seg => encodeSeg seg.data) ∘ fun f => String.mk (decodeSeg f)) =
          (splitSlash rest).map id := by
        refine List.map_congr_left ?_
        intro f hf
        exact encodeSeg_decodeSeg f (hvalid f hf) (splitSlash_no_slash rest f hf)
      rw [hcong, List.map_id]
      cases hs : splitSlash rest with
      | nil => exact absurd hs (splitSlash_ne_nil rest)
      | cons sfrag ss =>
        have hj : joinSlash ([] :: sfrag :: ss) = '/' :: joinSlash (sfrag :: ss) := rfl
        have hrest : joinSlash (sfrag :: ss) = rest := by
          rw [← hs]; exact joinSlash_splitSlash rest
        rw [hj, hrest]
    · exact Except.noConfusion h

/-- Witness for `pointer_roundtrip` at the text with both escapes. -/
theorem pointer_roundtrip_witness :
    NewPointer "/a~0b/c~1d" = .ok ["a~b", "c/d"] ∧
    ptrToString ["a~b", "c/d"] = "/a~0b/c~1d" :=
  ⟨rfl, pointer_roundtrip "/a~0b/c~1d" ["a~b", "c/d"] rfl⟩

/-!
### Part 2: store-passing embedding for the aliasing / frame claims

Go maps and slices are reference values: mutating one through a pointer
mutates it wherever it is shared.  To state the frame claims (the
caller's base document never changes; a copied destination never aliases
its source) the containers live in an explicit store of cells and a value
is either a scalar or a cell address.  In-place Go map mutation is a
single cell write; Go's slice re-allocation (`make` + `copy` in `Put`,
the re-slicing in `Remove`, `append` for `-`) followed by
`handleChangedSlice`'s root propagation is a fresh cell allocation whose
address is written into the parent container by `Replace`, exactly as the
Go code hands the new slice value to `holdPtr.Replace`.
-/

/-- A Go interface scalar: nil / bool / float64 / string. -/
inductive Scalar where
  | null
  | bool (b : Bool)
  | num (n : Int)
  | str (s : String)
deriving DecidableEq, Repr

/-- A heap value: a scalar, or the address of a container cell. -/
inductive HVal where
  | scalar (s : Scalar)
  | ref (a : Nat)
deriving DecidableEq, Repr

/-- A container cell: a slice backing or a map. -/
inductive HNode where
  | arr (elems : List HVal)
  | obj (fields : List (String × HVal))
deriving DecidableEq, Repr

/-- The store of container cells, addressed by position. -/
abbrev Store := List HNode

def Scalar.toJSON : Scalar → JSON
  | .null => .null
  | .bool b => .bool b
  | .num n => .num n
  | .str s => .str s

/-- Addresses directly held by a value. -/
def HVal.addrs : HVal → List Nat
  | .scalar _ => []
  | .ref a => [a]

/-- The values a container cell holds. -/
def HNode.vals : HNode → List HVal
  | .arr elems => elems
  | .obj fields => fields.map Prod.snd

/-- Addresses a container cell holds. -/
def HNode.refs (n : HNode) : List Nat :=
  (n.vals.map HVal.addrs).flatten

def lookupFieldH (k : String) : List (String × HVal) → Option HVal
  | [] => none
  | (k', v) :: rest => if k' = k then some v else lookupFieldH k rest

def setFieldH (k : String) (v : HVal) : List (String × HVal) → List (String × HVal)
  | [] => [(k, v)]
  | (k', v') :: rest => if k' = k then (k, v) :: rest else (k', v') :: setFieldH k v rest

def delFieldH (k : String) : List (String × HVal) → List (String × HVal)
  | [] => []
  | (k', v') :: rest => if k' = k then rest else (k', v') :: delFieldH k rest

/-- `Pointer.Get` on the store: walk the tokens, reading container cells.
(A dangling address never arises from the loaded stores the claims use;
the error is the model's totality device.) -/
def HGet (st : Store) : Pointer → HVal → Except JErr HVal
  | [], v => .ok v
  | selector :: rest, v =>
    match v with
    | .ref a =>
      match st[a]? with
      | some (.obj fields) =>
        match lookupFieldH selector fields with
        | some found => HGet st rest found
        | none => .error .selectorNotFound
      | some (.arr elems) =>
        match normalizeOffset selector elems.length with
        | .error e => .error e
        | .ok idx => HGet st rest (elems.getD idx (.scalar .null))
      | none => .error .danglingRef
    | .scalar _ => .error .notIndexable

/-- `Pointer.Replace` on the store: locate the parent container cell with
`toContainer` (`HGet` of all but the last token) and overwrite the
addressed slot in place — a single cell write; the empty pointer replaces
the whole document.  Failure leaves the store untouched and returns the
original root, as the Go function returns `(to, err)`. -/
def HReplace (st : Store) (p : Pointer) (root val : HVal) : Store × HVal × Option JErr :=
  match p with
  | [] => (st, val, none)
  | _ =>
    let selector := p.getLast!
    match HGet st p.dropLast root with
    | .error e => (st, root, some e)
    | .ok container =>
      match container with
      | .ref a =>
        match st[a]? with
        | some (.obj fields) =>
          match lookupFieldH selector fields with
          | some _ => (st.set a (.obj (setFieldH selector val fields)), root, none)
          | none => (st, root, some .replaceMissing)
        | some (.arr elems) =>
          match normalizeOffset selector elems.length with
          | .error e => (st, root, some e)
          | .ok idx => (st.set a (.arr (elems.set idx val)), root, none)
        | none => (st, root, some .danglingRef)
      | .scalar _ => (st, root, some .putNonIndexable)

/-- `handleChangedSlice`: the re-built slice is a fresh cell (Go
re-allocated the backing); with more than one token the fresh address is
written into the slice's own parent by `Replace` at the chopped pointer,
otherwise the fresh slice is the new root. -/
def hChangedSlice (st : Store) (p : Pointer) (root : HVal) (newElems : List HVal) :
    Store × HVal × Option JErr :=
  let st1 := st ++ [HNode.arr newElems]
  if 1 < p.length then HReplace st1 p.dropLast root (.ref st.length)
  else (st1, .ref st.length, none)

/-- `Pointer.Put` on the store: map keys are set unconditionally in
place; `-` appends and a normalized in-bounds index inserts, both
re-allocating the slice and propagating it with `hChangedSlice`. -/
def HPut (st : Store) (p : Pointer) (root val : HVal) : Store × HVal × Option JErr :=
  match p with
  | [] => (st, root, some .cannotHappen)
  | _ =>
    let selector := p.getLast!
    match HGet st p.dropLast root with
    | .error e => (st, root, some e)
    | .ok container =>
      match container with
      | .ref a =>
        match st[a]? with
        | some (.obj fields) => (st.set a (.obj (setFieldH selector val fields)), root, none)
        | some (.arr elems) =>
          if selector = "-" then hChangedSlice st p root (elems ++ [val])
          else
            match normalizeOffset selector elems.length with
            | .error e => (st, root, some e)
            | .ok idx => hChangedSlice st p root (elems.take idx ++ val :: elems.drop idx)
        | none => (st, root, some .danglingRef)
      | .scalar _ => (st, root, some .putNonIndexable)

/-- `Pointer.Remove` on the store: map keys must exist and are deleted in
place; an in-bounds index is removed, shrinking the slice, which is
propagated like a grown one. -/
def HRemove (st : Store) (p : Pointer) (root : HVal) : Store × HVal × Option JErr :=
  match p with
  | [] => (st, root, some .cannotHappen)
  | _ =>
    let selector := p.getLast!
    match HGet st p.dropLast root with
    | .error e => (st, root, some e)
    | .ok container =>
      match container with
      | .ref a =>
        match st[a]? with
        | some (.obj fields) =>
          match lookupFieldH selector fields with
          | some _ => (st.set a (.obj (delFieldH selector fields)), root, none)
          | none => (st, root, some .removeMissing)
        | some (.arr elems) =>
          match normalizeOffset selector elems.length with
          | .error e => (st, root, some e)
          | .ok idx => hChangedSlice st p root (elems.eraseIdx idx)
        | none => (st, root, some .danglingRef)
      | .scalar _ => (st, root, some .removeNonIndexable)

/-- Read back the pure tree a heap value denotes, spending one unit of
fuel per cell dereference (fuel makes the reading total even on the
cyclic stores a pathological `move` can build). -/
def denoteF : Nat → Store → HVal → Option JSON
  | _, _, .scalar s => some s.toJSON
  | 0, _, .ref _ => none
  | fuel + 1, st, .ref a =>
    match st[a]? with
    | none => none
    | some (.arr elems) => (elems.mapM (denoteF fuel st)).map JSON.arr
    | some (.obj fields) =>
      (fields.mapM fun kv => (denoteF fuel st kv.2).map fun j => (kv.1, j)).map JSON.obj

mutual
/-- Allocate fresh cells holding the pure tree `t` (children first, so a
cell only references earlier cells). -/
def loadVal (st : Store) : JSON → Store × HVal
  | .null => (st, .scalar .null)
  | .bool b => (st, .scalar (.bool b))
  | .num n => (st, .scalar (.num n))
  | .str s => (st, .scalar (.str s))
  | .arr elems =>
    let (st', hs) := loadList st elems
    (st' ++ [.arr hs], .ref st'.length)
  | .obj fields =>
    let (st', hfs) := loadFields st fields
    (st' ++ [.obj hfs], .ref st'.length)

def loadList (st : Store) : List JSON → Store × List HVal
  | [] => (st, [])
  | t :: rest =>
    let (st1, v) := loadVal st t
    let (st2, vs) := loadList st1 rest
    (st2, v :: vs)

def loadFields (st : Store) : List (String × JSON) → Store × List (String × HVal)
  | [] => (st, [])
  | (k, t) :: rest =>
    let (st1, v) := loadVal st t
    let (st2, kvs) := loadFields st1 rest
    (st2, (k, v) :: kvs)
end

/-- Modelled from the spec: `utils.Clone` (package utils, not under src/)
deep-clones a Value, sharing no container with the original: read the
denotation and allocate it afresh.  The fuel `st.length + 1` suffices for
every acyclic value (each dereference visits a strictly earlier cell in
the loaded stores the claims use); the error leg is reachable only on a
cyclic value, on which the Go clone does not terminate at all. -/
def HClone (st : Store) (v : HVal) : Store × HVal × Option JErr :=
  match denoteF (st.length + 1) st v with
  | none => (st, v, some .cloneDepth)
  | some t =>
    let (st', v') := loadVal st t
    (st', v', none)

/-- `reflect.DeepEqual` on heap values, compared through their
denotations (agrees with Go on every acyclic value; Go's cycle-tolerant
comparison is outside what any claim exercises). -/
def hDeepEqual (st : Store) (v1 v2 : HVal) : Bool :=
  match denoteF (st.length + 1) st v1, denoteF (st.length + 1) st v2 with
  | some a, some b => deepEqual a b
  | _, _ => false

/-- `Pointer.Test` on the store. -/
def HTest (st : Store) (p : Pointer) (root sample : HVal) : Option JErr :=
  match HGet st p root with
  | .error e => some e
  | .ok val => if hDeepEqual st val sample then none else some .testFailed

/-- `Pointer.Copy` on the store: read the source, deep-clone it, `Put`
the clone. -/
def HCopy (st : Store) (p : Pointer) (root : HVal) (at' : Pointer) :
    Store × HVal × Option JErr :=
  match HGet st p root with
  | .error e => (st, root, some e)
  | .ok val =>
    match HClone st val with
    | (st1, _, some e) => (st1, root, some e)
    | (st1, v', none) => HPut st1 at' root v'

/-- `Pointer.Move` on the store: read the source, `Put` it at the
destination (no clone — the moved value is handed over as-is), then
`Remove` the source from the put's result. -/
def HMove (st : Store) (p : Pointer) (root : HVal) (at' : Pointer) :
    Store × HVal × Option JErr :=
  match HGet st p root with
  | .error e => (st, root, some e)
  | .ok val =>
    match HPut st at' root val with
    | (st1, val', some e) => (st1, val', some e)
    | (st1, val', none) => HRemove st1 p val'

/-- An operation whose value already lives in the store. -/
structure HOperation where
  op : String
  path : Pointer
  fromPtr : Option Pointer
  value : HVal

/-- `Operation.apply` on the store. -/
def HOperation.applyOp (o : HOperation) (st : Store) (toDoc : HVal) :
    Store × HVal × Option JErr :=
  match o.op with
  | "test" => (st, toDoc, HTest st o.path toDoc o.value)
  | "replace" => HReplace st o.path toDoc o.value
  | "add" => HPut st o.path toDoc o.value
  | "remove" => HRemove st o.path toDoc
  | "move" => HMove st (o.fromPtr.getD ([] : List String)) toDoc o.path
  | "copy" => HCopy st (o.fromPtr.getD ([] : List String)) toDoc o.path
  | _ => (st, toDoc, some .invalidOp)

/-- The indexed application loop of `Patch.apply` on the store. -/
def hApplyLoop : List HOperation → Store → HVal → Nat → Store × HVal × Option JErr × Nat
  | [], st, result, _ => (st, result, none, 0)
  | o :: rest, st, result, i =>
    match o.applyOp st result with
    | (st', result', some e) => (st', result', some e, i)
    | (st', result', none) => hApplyLoop rest st' result' (i + 1)

/-- `Patch.apply` on the store: deep-clone the base into the working
root, then run the loop.  (The clone's fuel error leg cannot fire on the
loaded stores the claims use.) -/
def hApplyPatch (ops : List HOperation) (st : Store) (base : HVal) :
    Store × HVal × Option JErr × Nat :=
  match HClone st base with
  | (st1, work, none) => hApplyLoop ops st1 work 0
  | (st1, _, some e) => (st1, base, some e, 0)

/-- A patch entry before loading: the operation with its value as a pure
tree. -/
structure POp where
  op : String
  path : Pointer
  fromPtr : Option Pointer
  value : JSON

/-- Load every entry's value into the store. -/
def loadOps (st : Store) : List POp → Store × List HOperation
  | [] => (st, [])
  | p :: rest =>
    let (st1, v) := loadVal st p.value
    let (st2, hs) := loadOps st1 rest
    (st2, ⟨p.op, p.path, p.fromPtr, v⟩ :: hs)

/-! ### Region-based frame reasoning over the store -/

/-- Every address a value holds lies at or above `n0` (outside the
protected low region). -/
def ValHigh (n0 : Nat) (v : HVal) : Prop := ∀ b ∈ v.addrs, n0 ≤ b

/-- The separation invariant the application loop maintains: the cells
below `n0` still hold what `base` holds there, no cell at or above `n0`
references a cell below `n0`, and the store never shrinks below `n0`. -/
structure Frame (n0 : Nat) (base st : Store) : Prop where
  protEq : ∀ a, a < n0 → st[a]? = base[a]?
  noBack : ∀ a n, n0 ≤ a → st[a]? = some n → ∀ b ∈ n.refs, n0 ≤ b
  lenLe : n0 ≤ st.length

theorem mem_refs_arr {b : Nat} {w : HVal} {elems : List HVal}
    (hw : w ∈ elems) (hb : b ∈ w.addrs) : b ∈ (HNode.arr elems).refs := by
  simp only [HNode.refs, HNode.vals, List.mem_flatten]
  exact ⟨w.addrs, List.mem_map_of_mem HVal.addrs hw, hb⟩

theorem mem_refs_obj {b : Nat} {k : String} {w : HVal} {fields : List (String × HVal)}
    (hw : (k, w) ∈ fields) (hb : b ∈ w.addrs) : b ∈ (HNode.obj fields).refs := by
  simp only [HNode.refs, HNode.vals, List.mem_flatten]
  refine ⟨w.addrs, ?_, hb⟩
  rw [List.map_map]
  exact List.mem_map_of_mem (HVal.addrs ∘ Prod.snd) hw

theorem mem_vals_refs {b : Nat} {w : HVal} {n : HNode}
    (hw : w ∈ n.vals) (hb : b ∈ w.addrs) : b ∈ n.refs := by
  simp only [HNode.refs, List.mem_flatten]
  exact ⟨w.addrs, List.mem_map_of_mem HVal.addrs hw, hb⟩

theorem lookupFieldH_mem {k : String} {v : HVal} :
    ∀ {fields : List (String × HVal)}, lookupFieldH k fields = some v → v ∈ fields.map Prod.snd := by
  intro fields
  induction fields with
  | nil => intro h; simp [lookupFieldH] at h
  | cons kv rest ih =>
    intro h
    obtain ⟨k', v'⟩ := kv
    rw [lookupFieldH] at h
    by_cases hk : k' = k
    · rw [if_pos hk] at h
      obtain rfl : v' = v := Option.some.inj h
      simp
    · rw [if_neg hk] at h
      simpa using Or.inr (ih h)

/-- A successful `normalizeOffset` is in bounds. -/
theorem normalizeOffset_lt {selector : String} {bound idx : Nat}
    (h : normalizeOffset selector bound = .ok idx) : idx < bound := by
  unfold normalizeOffset at h
  cases hp : parseInt selector with
  | error e => rw [hp] at h; exact Except.noConfusion h
  | ok res₀ =>
    rw [hp] at h
    dsimp only at h
    split at h
    · split at h
      · exact absurd h (by simp)
      · rename_i hcond
        have hh := Except.ok.inj h
        push_neg at hcond
        omega
    · split at h
      · exact absurd h (by simp)
      · rename_i hcond
        have hh := Except.ok.inj h
        push_neg at hcond
        omega

theorem getD_mem_of_lt {elems : List HVal} {idx : Nat} (h : idx < elems.length) :
    elems.getD idx (.scalar .null) ∈ elems := by
  rw [List.getD_eq_getElem?_getD, List.getElem?_eq_getElem h]
  exact List.getElem_mem h

/-- Values `HGet` hands back from a high root through a frame-respecting
store are themselves high. -/
theorem HGet_high {n0 : Nat} {base st : Store} (hf : Frame n0 base st) :
    ∀ (p : Pointer) (root v : HVal), ValHigh n0 root → HGet st p root = .ok v → ValHigh n0 v := by
  intro p
  induction p with
  | nil =>
    intro root v hroot h
    obtain rfl : root = v := Except.ok.inj h
    exact hroot
  | cons selector rest ih =>
    intro root v hroot h
    rw [HGet.eq_def] at h
    cases root with
    | scalar s => exact Except.noConfusion h
    | ref a =>
      dsimp only at h
      have ha : n0 ≤ a := hroot a (by simp [HVal.addrs])
      cases hn : st[a]? with
      | none => rw [hn] at h; exact Except.noConfusion h
      | some n =>
        rw [hn] at h
        have hrefs : ∀ b ∈ n.refs, n0 ≤ b := hf.noBack a n ha hn
        cases n with
        | obj fields =>
          dsimp only at h
          cases hl : lookupFieldH selector fields with
          | none => rw [hl] at h; exact Except.noConfusion h
          | some found =>
            rw [hl] at h
            refine ih found v ?_ h
            intro b hb
            exact hrefs b (mem_vals_refs (by simpa [HNode.vals] using lookupFieldH_mem hl) hb)
        | arr elems =>
          dsimp only at h
          cases ho : normalizeOffset selector elems.length with
          | error e => rw [ho] at h; exact Except.noConfusion h
          | ok idx =>
            rw [ho] at h
            refine ih _ v ?_ h
            intro b hb
            exact hrefs b (@mem_vals_refs _ _ (.arr elems)
              (by simpa [HNode.vals] using getD_mem_of_lt (normalizeOffset_lt ho)) hb)

/-- Writing a high cell with a high-referencing node preserves the frame. -/
theorem Frame.set {n0 : Nat} {base st : Store} {a : Nat} {n : HNode}
    (hf : Frame n0 base st) (ha : n0 ≤ a) (hn : ∀ b ∈ n.refs, n0 ≤ b) :
    Frame n0 base (st.set a n) := by
  refine ⟨?_, ?_, ?_⟩
  · intro c hc
    rw [List.getElem?_set_ne (by omega)]
    exact hf.protEq c hc
  · intro c m hcn hm b hb
    by_cases hca : a = c
    · subst hca
      by_cases hlen : a < st.length
      · rw [List.getElem?_set_self hlen] at hm
        obtain rfl : n = m := Option.some.inj hm
        exact hn b hb
      · rw [List.set_eq_of_length_le (by omega)] at hm
        exact hf.noBack a m hcn hm b hb
    · rw [List.getElem?_set_ne hca] at hm
      exact hf.noBack c m hcn hm b hb
  · rw [List.length_set]
    exact hf.lenLe

/-- Appending fresh high-referencing cells preserves the frame. -/
theorem Frame.append {n0 : Nat} {base st : Store} {ns : List HNode}
    (hf : Frame n0 base st) (hns : ∀ m ∈ ns, ∀ b ∈ m.refs, n0 ≤ b) :
    Frame n0 base (st ++ ns) := by
  refine ⟨?_, ?_, ?_⟩
  · intro c hc
    rw [List.getElem?_append, if_pos (by have := hf.lenLe; omega)]
    exact hf.protEq c hc
  · intro c m hcn hm b hb
    by_cases hlen : c < st.length
    · rw [List.getElem?_append, if_pos hlen] at hm
      exact hf.noBack c m hcn hm b hb
    · rw [List.getElem?_append, if_neg hlen] at hm
      rw [← List.get?_eq_getElem?] at hm
      exact hns m (List.get?_mem hm) b hb
  · rw [List.length_append]
    have := hf.lenLe
    omega

/-- Denotation only looks at the region a value can reach: two stores
agreeing on a region that is closed under the first store's references
denote every value rooted in the region identically, at every fuel. -/
theorem denoteF_agree (P : Nat → Prop) (s1 s2 : Store)
    (hag : ∀ a, P a → s2[a]? = s1[a]?)
    (hcl : ∀ a n, P a → s1[a]? = some n → ∀ b ∈ n.refs, P b) :
    ∀ (fuel : Nat) (v : HVal), (∀ b ∈ v.addrs, P b) →
      denoteF fuel s2 v = denoteF fuel s1 v := by
  intro fuel
  induction fuel with
  | zero => intro v _; cases v <;> rfl
  | succ fuel ih =>
    intro v hv
    cases v with
    | scalar s => rfl
    | ref a =>
      have hPa : P a := hv a (by simp [HVal.addrs])
      rw [denoteF, denoteF, hag a hPa]
      cases hn : s1[a]? with
      | none => rfl
      | some n =>
        have hrefs : ∀ b ∈ n.refs, P b := hcl a n hPa hn
        cases n with
        | arr elems =>
          dsimp only
          have harr : ∀ (l : List HVal), (∀ w ∈ l, ∀ b ∈ w.addrs, P b) →
              l.mapM (denoteF fuel s2) = l.mapM (denoteF fuel s1) := by
            intro l
            induction l with
            | nil => intro _; rfl
            | cons w ws ihw =>
              intro hl
              rw [List.mapM_cons, List.mapM_cons, ih w (hl w (by simp)),
                ihw fun w' hw' => hl w' (by simp [hw'])]
          rw [harr elems fun w hw b hb =>
            hrefs b (@mem_vals_refs _ _ (.arr elems) (by simpa [HNode.vals] using hw) hb)]
        | obj fields =>
          dsimp only
          have hobj : ∀ (l : List (String × HVal)), (∀ kv ∈ l, ∀ b ∈ kv.2.addrs, P b) →
              (l.mapM fun kv => (denoteF fuel s2 kv.2).map fun j => (kv.1, j)) =
              (l.mapM fun kv => (denoteF fuel s1 kv.2).map fun j => (kv.1, j)) := by
            intro l
            induction l with
            | nil => intro _; rfl
            | cons kv kvs ihkv =>
              intro hl
              rw [List.mapM_cons, List.mapM_cons, ih kv.2 (hl kv (by simp)),
                ihkv fun kv' hkv' => hl kv' (by simp [hkv'])]
          rw [hobj fields fun kv hkv b hb =>
            hrefs b (@mem_vals_refs _ _ (.obj fields)
              (by simpa [HNode.vals] using List.mem_map_of_mem Prod.snd hkv) hb)]

/-! ### Frame preservation by the mutating primitives -/

theorem triple_eq {α β γ : Type _} {a a' : α} {b b' : β} {c c' : γ}
    (h : (a, b, c) = (a', b', c')) : a = a' ∧ b = b' ∧ c = c' := by
  injection h with h1 h2
  injection h2 with h2 h3
  exact ⟨h1, h2, h3⟩

theorem mem_of_mem_eraseIdx {α : Type _} : ∀ (l : List α) (i : Nat) (w : α),
    w ∈ l.eraseIdx i → w ∈ l := by
  intro l
  induction l with
  | nil => intro i w h; simp [List.eraseIdx] at h
  | cons x xs ih =>
    intro i w h
    cases i with
    | zero =>
      rw [List.eraseIdx] at h
      exact List.mem_cons_of_mem x h
    | succ i =>
      rw [List.eraseIdx] at h
      rcases List.mem_cons.mp h with rfl | hmem
      · exact List.mem_cons_self w xs
      · exact List.mem_cons_of_mem x (ih i w hmem)

theorem mem_snd_setFieldH {k : String} {v : HVal} : ∀ (fields : List (String × HVal)) (w : HVal),
    w ∈ (setFieldH k v fields).map Prod.snd → w = v ∨ w ∈ fields.map Prod.snd := by
  intro fields
  induction fields with
  | nil => intro w h
           simp only [setFieldH, List.map_cons, List.map_nil] at h
           exact Or.inl (by simpa using h)
  | cons kv rest ih =>
    intro w h
    obtain ⟨k', v'⟩ := kv
    rw [setFieldH] at h
    by_cases hk : k' = k
    · rw [if_pos hk, List.map_cons] at h
      rcases List.mem_cons.mp h with h1 | h1
      · exact Or.inl h1
      · exact Or.inr (by rw [List.map_cons]; exact List.mem_cons_of_mem v' h1)
    · rw [if_neg hk, List.map_cons] at h
      rcases List.mem_cons.mp h with rfl | h1
      · exact Or.inr (by rw [List.map_cons]; exact List.mem_cons_self _ _)
      · rcases ih w h1 with h2 | h2
        · exact Or.inl h2
        · exact Or.inr (by rw [List.map_cons]; exact List.mem_cons_of_mem v' h2)

theorem mem_snd_delFieldH {k : String} : ∀ (fields : List (String × HVal)) (w : HVal),
    w ∈ (delFieldH k fields).map Prod.snd → w ∈ fields.map Prod.snd := by
  intro fields
  induction fields with
  | nil => intro w h; simp [delFieldH] at h
  | cons kv rest ih =>
    intro w h
    obtain ⟨k', v'⟩ := kv
    rw [delFieldH] at h
    by_cases hk : k' = k
    · rw [if_pos hk] at h
      rw [List.map_cons]
      exact List.mem_cons_of_mem v' h
    · rw [if_neg hk, List.map_cons] at h
      rw [List.map_cons]
      rcases List.mem_cons.mp h with rfl | h1
      · exact List.mem_cons_self _ _
      · exact List.mem_cons_of_mem v' (ih w h1)

theorem refs_inv {b : Nat} {n : HNode} (hb : b ∈ n.refs) : ∃ w ∈ n.vals, b ∈ w.addrs := by
  simp only [HNode.refs, List.mem_flatten, List.mem_map] at hb
  obtain ⟨_, ⟨w, hw, rfl⟩, hbw⟩ := hb
  exact ⟨w, hw, hbw⟩

theorem refs_arr_subset_high {n0 : Nat} {elems newElems : List HVal}
    (hsub : ∀ w ∈ newElems, w ∈ elems ∨ ∀ b ∈ w.addrs, n0 ≤ b)
    (hold : ∀ b ∈ (HNode.arr elems).refs, n0 ≤ b) :
    ∀ b ∈ (HNode.arr newElems).refs, n0 ≤ b := by
  intro b hb
  obtain ⟨w, hw, hbw⟩ := refs_inv hb
  rcases hsub w (by simpa [HNode.vals] using hw) with hmem | hhigh
  · exact hold b (@mem_vals_refs _ _ (.arr elems) (by simpa [HNode.vals] using hmem) hbw)
  · exact hhigh b hbw

theorem refs_obj_subset_high {n0 : Nat} {fields newFields : List (String × HVal)}
    (hsub : ∀ w ∈ newFields.map Prod.snd, w ∈ fields.map Prod.snd ∨ ∀ b ∈ w.addrs, n0 ≤ b)
    (hold : ∀ b ∈ (HNode.obj fields).refs, n0 ≤ b) :
    ∀ b ∈ (HNode.obj newFields).refs, n0 ≤ b := by
  intro b hb
  obtain ⟨w, hw, hbw⟩ := refs_inv hb
  rcases hsub w (by simpa [HNode.vals] using hw) with hmem | hhigh
  · exact hold b (@mem_vals_refs _ _ (.obj fields) (by simpa [HNode.vals] using hmem) hbw)
  · exact hhigh b hbw

theorem HReplace_frame {n0 : Nat} {base st : Store} {p : Pointer} {root val : HVal}
    {st' : Store} {root' : HVal} {err : Option JErr}
    (hf : Frame n0 base st) (hroot : ValHigh n0 root) (hval : ValHigh n0 val)
    (h : HReplace st p root val = (st', root', err)) :
    Frame n0 base st' ∧ ValHigh n0 root' ∧ st.length ≤ st'.length := by
  cases p with
  | nil =>
    obtain ⟨rfl, rfl, rfl⟩ := triple_eq ((rfl : HReplace st [] root val = (st, val, none)).symm.trans h)
    exact ⟨hf, hval, le_refl _⟩
  | cons s rest =>
    rw [HReplace.eq_def] at h
    dsimp only at h
    cases hget : HGet st ((s :: rest).dropLast) root with
    | error e =>
      rw [hget] at h
      obtain ⟨rfl, rfl, rfl⟩ := triple_eq h
      exact ⟨hf, hroot, le_refl _⟩
    | ok container =>
      rw [hget] at h
      have hcont : ValHigh n0 container := HGet_high hf _ root container hroot hget
      cases container with
      | scalar sc =>
        obtain ⟨rfl, rfl, rfl⟩ := triple_eq h
        exact ⟨hf, hroot, le_refl _⟩
      | ref a =>
        dsimp only at h
        have ha : n0 ≤ a := hcont a (by simp [HVal.addrs])
        cases hn : st[a]? with
        | none =>
          rw [hn] at h
          obtain ⟨rfl, rfl, rfl⟩ := triple_eq h
          exact ⟨hf, hroot, le_refl _⟩
        | some n =>
          rw [hn] at h
          have hrefs := hf.noBack a n ha hn
          cases n with
          | obj fields =>
            dsimp only at h
            cases hl : lookupFieldH (s :: rest).getLast! fields with
            | none =>
              rw [hl] at h
              obtain ⟨rfl, rfl, rfl⟩ := triple_eq h
              exact ⟨hf, hroot, le_refl _⟩
            | some w =>
              rw [hl] at h
              obtain ⟨rfl, rfl, rfl⟩ := triple_eq h
              refine ⟨hf.set ha (refs_obj_subset_high ?_ hrefs), hroot, by rw [List.length_set]⟩
              intro w' hw'
              rcases mem_snd_setFieldH fields w' hw' with rfl | hmem
              · exact Or.inr hval
              · exact Or.inl hmem
          | arr elems =>
            dsimp only at h
            cases ho : normalizeOffset (s :: rest).getLast! elems.length with
            | error e =>
              rw [ho] at h
              obtain ⟨rfl, rfl, rfl⟩ := triple_eq h
              exact ⟨hf, hroot, le_refl _⟩
            | ok idx =>
              rw [ho] at h
              obtain ⟨rfl, rfl, rfl⟩ := triple_eq h
              refine ⟨hf.set ha (refs_arr_subset_high ?_ hrefs), hroot, by rw [List.length_set]⟩
              intro w' hw'
              rcases List.mem_or_eq_of_mem_set hw' with hmem | rfl
              · exact Or.inl hmem
              · exact Or.inr hval

theorem hChangedSlice_frame {n0 : Nat} {base st : Store} {p : Pointer} {root : HVal}
    {newElems : List HVal} {st' : Store} {root' : HVal} {err : Option JErr}
    (hf : Frame n0 base st) (hroot : ValHigh n0 root)
    (helems : ∀ w ∈ newElems, ValHigh n0 w)
    (h : hChangedSlice st p root newElems = (st', root', err)) :
    Frame n0 base st' ∧ ValHigh n0 root' ∧ st.length ≤ st'.length := by
  rw [hChangedSlice] at h
  have hnode : ∀ m ∈ [HNode.arr newElems], ∀ b ∈ m.refs, n0 ≤ b := by
    intro m hm b hb
    obtain rfl : m = HNode.arr newElems := by simpa using hm
    exact @refs_arr_subset_high _ [] _ (fun w hw => Or.inr (helems w hw))
      (by simp [HNode.refs, HNode.vals]) b hb
  have hf1 : Frame n0 base (st ++ [HNode.arr newElems]) := hf.append hnode
  have hlen1 : st.length ≤ (st ++ [HNode.arr newElems]).length := by simp
  have hrefhigh : ValHigh n0 (.ref st.length) := by
    intro b hb
    obtain rfl : b = st.length := by simpa [HVal.addrs] using hb
    exact hf.lenLe
  split at h
  · obtain ⟨hf', hr', hl'⟩ := HReplace_frame hf1 hroot hrefhigh h
    exact ⟨hf', hr', le_trans hlen1 hl'⟩
  · obtain ⟨rfl, rfl, rfl⟩ := triple_eq h
    exact ⟨hf1, hrefhigh, hlen1⟩

theorem HPut_frame {n0 : Nat} {base st : Store} {p : Pointer} {root val : HVal}
    {st' : Store} {root' : HVal} {err : Option JErr}
    (hf : Frame n0 base st) (hroot : ValHigh n0 root) (hval : ValHigh n0 val)
    (h : HPut st p root val = (st', root', err)) :
    Frame n0 base st' ∧ ValHigh n0 root' ∧ st.length ≤ st'.length := by
  cases p with
  | nil =>
    obtain ⟨rfl, rfl, rfl⟩ := triple_eq ((rfl : HPut st [] root val = (st, root, some .cannotHappen)).symm.trans h)
    exact ⟨hf, hroot, le_refl _⟩
  | cons s rest =>
    rw [HPut.eq_def] at h
    dsimp only at h
    cases hget : HGet st ((s :: rest).dropLast) root with
    | error e =>
      rw [hget] at h
      obtain ⟨rfl, rfl, rfl⟩ := triple_eq h
      exact ⟨hf, hroot, le_refl _⟩
    | ok container =>
      rw [hget] at h
      have hcont : ValHigh n0 container := HGet_high hf _ root container hroot hget
      cases container with
      | scalar sc =>
        obtain ⟨rfl, rfl, rfl⟩ := triple_eq h
        exact ⟨hf, hroot, le_refl _⟩
      | ref a =>
        dsimp only at h
        have ha : n0 ≤ a := hcont a (by simp [HVal.addrs])
        cases hn : st[a]? with
        | none =>
          rw [hn] at h
          obtain ⟨rfl, rfl, rfl⟩ := triple_eq h
          exact ⟨hf, hroot, le_refl _⟩
        | some n =>
          rw [hn] at h
          have hrefs := hf.noBack a n ha hn
          cases n with
          | obj fields =>
            dsimp only at h
            obtain ⟨rfl, rfl, rfl⟩ := triple_eq h
            refine ⟨hf.set ha (refs_obj_subset_high ?_ hrefs), hroot, by rw [List.length_set]⟩
            intro w' hw'
            rcases mem_snd_setFieldH fields w' hw' with rfl | hmem
            · exact Or.inr hval
            · exact Or.inl hmem
          | arr elems =>
            dsimp only at h
            have hval_mem : ∀ w ∈ elems, ValHigh n0 w := by
              intro w hw b hb
              exact hrefs b (@mem_vals_refs _ _ (.arr elems) (by simpa [HNode.vals] using hw) hb)
            split at h
            · exact hChangedSlice_frame hf hroot
                (fun w hw => by
                  rcases List.mem_append.mp hw with hmem | hmem
                  · exact hval_mem w hmem
                  · obtain rfl : w = val := by simpa using hmem
                    exact hval) h
            · cases ho : normalizeOffset (s :: rest).getLast! elems.length with
              | error e =>
                rw [ho] at h
                obtain ⟨rfl, rfl, rfl⟩ := triple_eq h
                exact ⟨hf, hroot, le_refl _⟩
              | ok idx =>
                rw [ho] at h
                refine hChangedSlice_frame hf hroot (fun w hw => ?_) h
                rcases List.mem_append.mp hw with hmem | hmem
                · exact hval_mem w (List.mem_of_mem_take hmem)
                · rcases List.mem_cons.mp hmem with rfl | hmem2
                  · exact hval
                  · exact hval_mem w (List.mem_of_mem_drop hmem2)

theorem HRemove_frame {n0 : Nat} {base st : Store} {p : Pointer} {root : HVal}
    {st' : Store} {root' : HVal} {err : Option JErr}
    (hf : Frame n0 base st) (hroot : ValHigh n0 root)
    (h : HRemove st p root = (st', root', err)) :
    Frame n0 base st' ∧ ValHigh n0 root' ∧ st.length ≤ st'.length := by
  cases p with
  | nil =>
    obtain ⟨rfl, rfl, rfl⟩ := triple_eq ((rfl : HRemove st [] root = (st, root, some .cannotHappen)).symm.trans h)
    exact ⟨hf, hroot, le_refl _⟩
  | cons s rest =>
    rw [HRemove.eq_def] at h
    dsimp only at h
    cases hget : HGet st ((s :: rest).dropLast) root with
    | error e =>
      rw [hget] at h
      obtain ⟨rfl, rfl, rfl⟩ := triple_eq h
      exact ⟨hf, hroot, le_refl _⟩
    | ok container =>
      rw [hget] at h
      have hcont : ValHigh n0 container := HGet_high hf _ root container hroot hget
      cases container with
      | scalar sc =>
        obtain ⟨rfl, rfl, rfl⟩ := triple_eq h
        exact ⟨hf, hroot, le_refl _⟩
      | ref a =>
        dsimp only at h
        have ha : n0 ≤ a := hcont a (by simp [HVal.addrs])
        cases hn : st[a]? with
        | none =>
          rw [hn] at h
          obtain ⟨rfl, rfl, rfl⟩ := triple_eq h
          exact ⟨hf, hroot, le_refl _⟩
        | some n =>
          rw [hn] at h
          have hrefs := hf.noBack a n ha hn
          cases n with
          | obj fields =>
            dsimp only at h
            cases hl : lookupFieldH (s :: rest).getLast! fields with
            | none =>
              rw [hl] at h
              obtain ⟨rfl, rfl, rfl⟩ := triple_eq h
              exact ⟨hf, hroot, le_refl _⟩
            | some w =>
              rw [hl] at h
              obtain ⟨rfl, rfl, rfl⟩ := triple_eq h
              refine ⟨hf.set ha (refs_obj_subset_high ?_ hrefs), hroot, by rw [List.length_set]⟩
              intro w' hw'
              exact Or.inl (mem_snd_delFieldH fields w' hw')
          | arr elems =>
            dsimp only at h
            cases ho : normalizeOffset (s :: rest).getLast! elems.length with
            | error e =>
              rw [ho] at h
              obtain ⟨rfl, rfl, rfl⟩ := triple_eq h
              exact ⟨hf, hroot, le_refl _⟩
            | ok idx =>
              rw [ho] at h
              refine hChangedSlice_frame hf hroot (fun w hw => fun b hb => ?_) h
              exact hrefs b (@mem_vals_refs _ _ (.arr elems)
                (by simpa [HNode.vals] using mem_of_mem_eraseIdx elems idx w hw) hb)

/-! ### Allocation lemmas for the tree loader -/

theorem store_getElem?_none {st : Store} {a : Nat} (h : st.length ≤ a) : st[a]? = none := by
  rw [List.getElem?_eq_none_iff]
  exact h

/-- Store extension: the store only grew, old cells are untouched, and
every fresh cell references only fresh cells strictly before itself. -/
structure StoreExt (st st' : Store) : Prop where
  lenLe : st.length ≤ st'.length
  oldEq : ∀ a, a < st.length → st'[a]? = st[a]?
  freshRefs : ∀ a n, st.length ≤ a → st'[a]? = some n → ∀ b ∈ n.refs, st.length ≤ b ∧ b < a

/-- A value whose addresses are all fresh relative to `st` and in range
in `st'`. -/
def ValFresh (st st' : Store) (v : HVal) : Prop :=
  ∀ b ∈ v.addrs, st.length ≤ b ∧ b < st'.length

theorem StoreExt.refl (st : Store) : StoreExt st st :=
  ⟨le_refl _, fun _ _ => rfl, fun a n ha hn => absurd hn (by rw [store_getElem?_none ha]; simp)⟩

theorem StoreExt.trans {s1 s2 s3 : Store} (h12 : StoreExt s1 s2) (h23 : StoreExt s2 s3) :
    StoreExt s1 s3 := by
  refine ⟨le_trans h12.lenLe h23.lenLe, ?_, ?_⟩
  · intro a ha
    rw [h23.oldEq a (lt_of_lt_of_le ha h12.lenLe), h12.oldEq a ha]
  · intro a n ha hn b hb
    by_cases h2 : a < s2.length
    · rw [h23.oldEq a h2] at hn
      exact h12.freshRefs a n ha hn b hb
    · obtain ⟨hb1, hb2⟩ := h23.freshRefs a n (by omega) hn b hb
      exact ⟨le_trans h12.lenLe hb1, hb2⟩

theorem StoreExt.snoc {st st'' : Store} {n : HNode} (h : StoreExt st st'')
    (hn : ∀ b ∈ n.refs, st.length ≤ b ∧ b < st''.length) :
    StoreExt st (st'' ++ [n]) := by
  refine ⟨by have := h.lenLe; simp; omega, ?_, ?_⟩
  · intro a ha
    rw [List.getElem?_append, if_pos (by have := h.lenLe; omega)]
    exact h.oldEq a ha
  · intro a m ha hm b hb
    by_cases h2 : a < st''.length
    · rw [List.getElem?_append, if_pos h2] at hm
      exact h.freshRefs a m ha hm b hb
    · rw [List.getElem?_append, if_neg h2] at hm
      have ha2 : a = st''.length := by
        by_contra hne
        rw [show a - st''.length = (a - st''.length - 1) + 1 by omega] at hm
        simp at hm
      subst ha2
      obtain rfl : n = m := by
        rw [Nat.sub_self] at hm
        simpa using hm
      obtain ⟨hb1, hb2⟩ := hn b hb
      omega

/-- The bundled allocation facts about the three tree loaders. -/
theorem load_spec_all :
    (∀ (st : Store) (t : JSON), StoreExt st (loadVal st t).1 ∧
      ValFresh st (loadVal st t).1 (loadVal st t).2) ∧
    (∀ (st : Store) (fs : List (String × JSON)), StoreExt st (loadFields st fs).1 ∧
      ∀ kv ∈ (loadFields st fs).2, ValFresh st (loadFields st fs).1 kv.2) ∧
    (∀ (st : Store) (l : List JSON), StoreExt st (loadList st l).1 ∧
      ∀ v ∈ (loadList st l).2, ValFresh st (loadList st l).1 v) := by
  refine loadVal.mutual_induct
    (fun st t => StoreExt st (loadVal st t).1 ∧ ValFresh st (loadVal st t).1 (loadVal st t).2)
    (fun st fs => StoreExt st (loadFields st fs).1 ∧
      ∀ kv ∈ (loadFields st fs).2, ValFresh st (loadFields st fs).1 kv.2)
    (fun st l => StoreExt st (loadList st l).1 ∧
      ∀ v ∈ (loadList st l).2, ValFresh st (loadList st l).1 v)
    ?_ ?_ ?_ ?_ ?_ ?_ ?_ ?_ ?_ ?_
  · intro st
    exact ⟨StoreExt.refl st, fun b hb => by simp [loadVal, HVal.addrs] at hb⟩
  · intro st b
    exact ⟨StoreExt.refl st, fun c hc => by simp [loadVal, HVal.addrs] at hc⟩
  · intro st n
    exact ⟨StoreExt.refl st, fun c hc => by simp [loadVal, HVal.addrs] at hc⟩
  · intro st s
    exact ⟨StoreExt.refl st, fun c hc => by simp [loadVal, HVal.addrs] at hc⟩
  · intro st elems st' hs hload ih
    obtain ⟨hext, hfresh⟩ := ih
    rw [hload] at hext hfresh
    have heq : loadVal st (.arr elems) = (st' ++ [.arr hs], .ref st'.length) := by
      rw [loadVal, hload]
    rw [heq]
    constructor
    · refine hext.snoc ?_
      intro b hb
      obtain ⟨w, hw, hbw⟩ := refs_inv hb
      exact hfresh w (by simpa [HNode.vals] using hw) b hbw
    · intro b hb
      obtain rfl : b = st'.length := by simpa [HVal.addrs] using hb
      refine ⟨hext.lenLe, by simp⟩
  · intro st fields st' hfs hload ih
    obtain ⟨hext, hfresh⟩ := ih
    rw [hload] at hext hfresh
    have heq : loadVal st (.obj fields) = (st' ++ [.obj hfs], .ref st'.length) := by
      rw [loadVal, hload]
    rw [heq]
    constructor
    · refine hext.snoc ?_
      intro b hb
      obtain ⟨w, hw, hbw⟩ := refs_inv hb
      simp only [HNode.vals, List.mem_map] at hw
      obtain ⟨kv, hkv, rfl⟩ := hw
      exact hfresh kv hkv b hbw
    · intro b hb
      obtain rfl : b = st'.length := by simpa [HVal.addrs] using hb
      refine ⟨hext.lenLe, by simp⟩
  · intro st
    exact ⟨StoreExt.refl st, fun v hv => by simp [loadList] at hv⟩
  · intro st t rest st1 v hv st' hs hrest ih1 ih2
    obtain ⟨hext1, hfresh1⟩ := ih1
    obtain ⟨hext2, hfresh2⟩ := ih2
    rw [hv] at hext1 hfresh1
    rw [hrest] at hext2 hfresh2
    have heq : loadList st (t :: rest) = (st', v :: hs) := by
      rw [loadList, hv]
      dsimp only
      rw [hrest]
    rw [heq]
    refine ⟨hext1.trans hext2, ?_⟩
    intro w hw b hb
    rcases List.mem_cons.mp hw with rfl | hmem
    · obtain ⟨h1, h2⟩ := hfresh1 b hb
      exact ⟨h1, lt_of_lt_of_le h2 hext2.lenLe⟩
    · obtain ⟨h1, h2⟩ := hfresh2 w hmem b hb
      exact ⟨le_trans hext1.lenLe h1, h2⟩
  · intro st
    exact ⟨StoreExt.refl st, fun kv hkv => by simp [loadFields] at hkv⟩
  · intro st k' v rest st1 v1 hv st' hfs hrest ih1 ih2
    obtain ⟨hext1, hfresh1⟩ := ih1
    obtain ⟨hext2, hfresh2⟩ := ih2
    rw [hv] at hext1 hfresh1
    rw [hrest] at hext2 hfresh2
    have heq : loadFields st ((k', v) :: rest) = (st', (k', v1) :: hfs) := by
      rw [loadFields, hv]
      dsimp only
      rw [hrest]
    rw [heq]
    refine ⟨hext1.trans hext2, ?_⟩
    intro kv hkv b hb
    rcases List.mem_cons.mp hkv with rfl | hmem
    · obtain ⟨h1, h2⟩ := hfresh1 b hb
      exact ⟨h1, lt_of_lt_of_le h2 hext2.lenLe⟩
    · obtain ⟨h1, h2⟩ := hfresh2 kv hmem b hb
      exact ⟨le_trans hext1.lenLe h1, h2⟩

theorem loadVal_ext (st : Store) (t : JSON) : StoreExt st (loadVal st t).1 :=
  (load_spec_all.1 st t).1

theorem loadVal_fresh (st : Store) (t : JSON) :
    ValFresh st (loadVal st t).1 (loadVal st t).2 :=
  (load_spec_all.1 st t).2

/-- `loadOps` extends the store and every loaded operation value is fresh
and in range. -/
theorem loadOps_spec : ∀ (l : List POp) (st : Store),
    StoreExt st (loadOps st l).1 ∧
    ∀ o ∈ (loadOps st l).2, ∀ b ∈ o.value.addrs, st.length ≤ b ∧ b < (loadOps st l).1.length := by
  intro l
  induction l with
  | nil => intro st; exact ⟨StoreExt.refl st, fun o ho => by simp [loadOps] at ho⟩
  | cons p rest ih =>
    intro st
    obtain ⟨hext2, hfresh2⟩ := ih (loadVal st p.value).1
    have hext1 := loadVal_ext st p.value
    have hfresh1 := loadVal_fresh st p.value
    have heq : loadOps st (p :: rest) =
        ((loadOps (loadVal st p.value).1 rest).1,
          ⟨p.op, p.path, p.fromPtr, (loadVal st p.value).2⟩ ::
            (loadOps (loadVal st p.value).1 rest).2) := by
      rw [loadOps]
    rw [heq]
    refine ⟨hext1.trans hext2, ?_⟩
    intro o ho b hb
    rcases List.mem_cons.mp ho with rfl | hmem
    · obtain ⟨h1, h2⟩ := hfresh1 b hb
      exact ⟨h1, lt_of_lt_of_le h2 hext2.lenLe⟩
    · obtain ⟨h1, h2⟩ := hfresh2 o hmem b hb
      exact ⟨le_trans hext1.lenLe h1, h2⟩

/-! ### Frame preservation by clone, move, copy, and the loop -/

theorem Frame.ext {n0 : Nat} {base st st' : Store} (hf : Frame n0 base st)
    (hext : StoreExt st st') : Frame n0 base st' := by
  refine ⟨?_, ?_, le_trans hf.lenLe hext.lenLe⟩
  · intro a ha
    rw [hext.oldEq a (lt_of_lt_of_le ha hf.lenLe)]
    exact hf.protEq a ha
  · intro a n ha hn b hb
    by_cases h2 : a < st.length
    · rw [hext.oldEq a h2] at hn
      exact hf.noBack a n ha hn b hb
    · exact le_trans hf.lenLe (hext.freshRefs a n (by omega) hn b hb).1

theorem HClone_frame {n0 : Nat} {base st : Store} {v : HVal} {st' : Store} {v' : HVal}
    {err : Option JErr} (hf : Frame n0 base st) (h : HClone st v = (st', v', err)) :
    Frame n0 base st' ∧ st.length ≤ st'.length ∧
      (err = none → ValHigh n0 v') ∧ (err ≠ none → st' = st) := by
  rw [HClone] at h
  cases hd : denoteF (st.length + 1) st v with
  | none =>
    rw [hd] at h
    obtain ⟨rfl, rfl, rfl⟩ := triple_eq h
    exact ⟨hf, le_refl _, fun hc => Option.noConfusion hc, fun _ => rfl⟩
  | some t =>
    rw [hd] at h
    dsimp only at h
    obtain ⟨rfl, rfl, rfl⟩ := triple_eq h
    have hext := loadVal_ext st t
    have hfresh := loadVal_fresh st t
    refine ⟨hf.ext hext, hext.lenLe, fun _ b hb => le_trans hf.lenLe (hfresh b hb).1,
      fun hc => absurd rfl hc⟩

theorem HMove_frame {n0 : Nat} {base st : Store} {p : Pointer} {root : HVal} {at' : Pointer}
    {st' : Store} {root' : HVal} {err : Option JErr}
    (hf : Frame n0 base st) (hroot : ValHigh n0 root)
    (h : HMove st p root at' = (st', root', err)) :
    Frame n0 base st' ∧ ValHigh n0 root' ∧ st.length ≤ st'.length := by
  rw [HMove] at h
  cases hget : HGet st p root with
  | error e =>
    rw [hget] at h
    obtain ⟨rfl, rfl, rfl⟩ := triple_eq h
    exact ⟨hf, hroot, le_refl _⟩
  | ok val =>
    rw [hget] at h
    dsimp only at h
    have hval : ValHigh n0 val := HGet_high hf p root val hroot hget
    cases hput : HPut st at' root val with
    | mk st1 rest1 =>
      obtain ⟨val1, e1⟩ := rest1
      rw [hput] at h
      obtain ⟨hf1, hr1, hl1⟩ := HPut_frame hf hroot hval hput
      cases e1 with
      | some e =>
        obtain ⟨rfl, rfl, rfl⟩ := triple_eq h
        exact ⟨hf1, hr1, hl1⟩
      | none =>
        obtain ⟨hf2, hr2, hl2⟩ := HRemove_frame hf1 hr1 h
        exact ⟨hf2, hr2, le_trans hl1 hl2⟩

theorem HCopy_frame {n0 : Nat} {base st : Store} {p : Pointer} {root : HVal} {at' : Pointer}
    {st' : Store} {root' : HVal} {err : Option JErr}
    (hf : Frame n0 base st) (hroot : ValHigh n0 root)
    (h : HCopy st p root at' = (st', root', err)) :
    Frame n0 base st' ∧ ValHigh n0 root' ∧ st.length ≤ st'.length := by
  rw [HCopy] at h
  cases hget : HGet st p root with
  | error e =>
    rw [hget] at h
    obtain ⟨rfl, rfl, rfl⟩ := triple_eq h
    exact ⟨hf, hroot, le_refl _⟩
  | ok val =>
    rw [hget] at h
    dsimp only at h
    cases hclone : HClone st val with
    | mk st1 rest1 =>
      obtain ⟨v1, e1⟩ := rest1
      rw [hclone] at h
      obtain ⟨hf1, hl1, hv1, _⟩ := HClone_frame hf hclone
      cases e1 with
      | some e =>
        obtain ⟨rfl, rfl, rfl⟩ := triple_eq h
        exact ⟨hf1, hroot, hl1⟩
      | none =>
        obtain ⟨hf2, hr2, hl2⟩ := HPut_frame hf1 hroot (hv1 rfl) h
        exact ⟨hf2, hr2, le_trans hl1 hl2⟩

theorem HOperation.applyOp_frame {n0 : Nat} {base st : Store} {o : HOperation} {toDoc : HVal}
    {st' : Store} {res : HVal} {err : Option JErr}
    (hf : Frame n0 base st) (hdoc : ValHigh n0 toDoc) (hval : ValHigh n0 o.value)
    (h : o.applyOp st toDoc = (st', res, err)) :
    Frame n0 base st' ∧ ValHigh n0 res ∧ st.length ≤ st'.length := by
  rw [HOperation.applyOp] at h
  split at h
  · obtain ⟨rfl, rfl, rfl⟩ := triple_eq h
    exact ⟨hf, hdoc, le_refl _⟩
  · exact HReplace_frame hf hdoc hval h
  · exact HPut_frame hf hdoc hval h
  · exact HRemove_frame hf hdoc h
  · exact HMove_frame hf hdoc h
  · exact HCopy_frame hf hdoc h
  · obtain ⟨rfl, rfl, rfl⟩ := triple_eq h
    exact ⟨hf, hdoc, le_refl _⟩

/-! ### Denotation of loaded trees -/

mutual
/-- Container-nesting depth of a pure tree: the cell-dereference fuel
`denoteF` needs to read it back. -/
def jdepth : JSON → Nat
  | .null => 0
  | .bool _ => 0
  | .num _ => 0
  | .str _ => 0
  | .arr elems => jdepthList elems + 1
  | .obj fields => jdepthFields fields + 1

def jdepthList : List JSON → Nat
  | [] => 0
  | t :: rest => max (jdepth t) (jdepthList rest)

def jdepthFields : List (String × JSON) → Nat
  | [] => 0
  | (_, t) :: rest => max (jdepth t) (jdepthFields rest)
end

/-- Reading a loaded tree back (in any store that agrees with the loaded
one on the fresh region) returns the tree, given enough fuel. -/
theorem loadVal_denote :
    ∀ (st : Store) (t : JSON) (st'' : Store) (fuel : Nat), jdepth t ≤ fuel →
      (∀ a, st.length ≤ a → a < (loadVal st t).1.length → st''[a]? = (loadVal st t).1[a]?) →
      denoteF fuel st'' (loadVal st t).2 = some t := by
  have main := loadVal.mutual_induct
    (fun st t => ∀ (st'' : Store) (fuel : Nat), jdepth t ≤ fuel →
      (∀ a, st.length ≤ a → a < (loadVal st t).1.length → st''[a]? = (loadVal st t).1[a]?) →
      denoteF fuel st'' (loadVal st t).2 = some t)
    (fun st fs => ∀ (st'' : Store) (fuel : Nat), jdepthFields fs ≤ fuel →
      (∀ a, st.length ≤ a → a < (loadFields st fs).1.length → st''[a]? = (loadFields st fs).1[a]?) →
      ((loadFields st fs).2.mapM fun kv => (denoteF fuel st'' kv.2).map fun j => (kv.1, j)) =
        some fs)
    (fun st l => ∀ (st'' : Store) (fuel : Nat), jdepthList l ≤ fuel →
      (∀ a, st.length ≤ a → a < (loadList st l).1.length → st''[a]? = (loadList st l).1[a]?) →
      (loadList st l).2.mapM (denoteF fuel st'') = some l)
    ?_ ?_ ?_ ?_ ?_ ?_ ?_ ?_ ?_ ?_
  · exact main.1
  · intro st st'' fuel _ _
    cases fuel <;> rfl
  · intro st b st'' fuel _ _
    cases fuel <;> rfl
  · intro st n st'' fuel _ _
    cases fuel <;> rfl
  · intro st s st'' fuel _ _
    cases fuel <;> rfl
  · intro st elems st' hs hload ih st'' fuel hfuel hag
    have heq : loadVal st (.arr elems) = (st' ++ [.arr hs], .ref st'.length) := by
      rw [loadVal, hload]
    rw [heq] at hag ⊢
    have hlistext := (load_spec_all.2.2 st elems).1
    rw [hload] at hlistext
    cases fuel with
    | zero => simp [jdepth] at hfuel
    | succ f =>
      rw [denoteF]
      rw [hag st'.length hlistext.lenLe (by simp),
        List.getElem?_concat_length]
      dsimp only
      rw [hload] at ih
      rw [ih st'' f (by simpa [jdepth] using hfuel) ?_]
      · rfl
      · intro a ha1 ha2
        dsimp only at ha1 ha2
        rw [hag a ha1 (by simp; omega), List.getElem?_append, if_pos ha2]
  · intro st fields st' hfs hload ih st'' fuel hfuel hag
    have heq : loadVal st (.obj fields) = (st' ++ [.obj hfs], .ref st'.length) := by
      rw [loadVal, hload]
    rw [heq] at hag ⊢
    have hlistext := (load_spec_all.2.1 st fields).1
    rw [hload] at hlistext
    cases fuel with
    | zero => simp [jdepth] at hfuel
    | succ f =>
      rw [denoteF]
      rw [hag st'.length hlistext.lenLe (by simp),
        List.getElem?_concat_length]
      dsimp only
      rw [hload] at ih
      rw [ih st'' f (by simpa [jdepth] using hfuel) ?_]
      · rfl
      · intro a ha1 ha2
        dsimp only at ha1 ha2
        rw [hag a ha1 (by simp; omega), List.getElem?_append, if_pos ha2]
  · intro st st'' fuel _ _
    rfl
  · intro st t rest st1 v hv st' hs hrest ih1 ih2 st'' fuel hfuel hag
    have heq : loadList st (t :: rest) = (st', v :: hs) := by
      rw [loadList, hv]
      dsimp only
      rw [hrest]
    rw [heq] at hag ⊢
    have hext1 := loadVal_ext st t
    have hext2 := (load_spec_all.2.2 st1 rest).1
    rw [hv] at hext1
    rw [hrest] at hext2
    rw [hv] at ih1
    rw [hrest] at ih2
    rw [List.mapM_cons,
      ih1 st'' fuel (le_trans (Nat.le_max_left _ _) (by simpa [jdepthList] using hfuel)) ?_,
      ih2 st'' fuel (le_trans (Nat.le_max_right _ _) (by simpa [jdepthList] using hfuel)) ?_]
    · rfl
    · intro a ha1 ha2
      dsimp only at ha1 ha2
      exact hag a (le_trans hext1.lenLe ha1) ha2
    · intro a ha1 ha2
      dsimp only at ha1 ha2
      refine (hag a ha1 (lt_of_lt_of_le ha2 hext2.lenLe)).trans ?_
      exact hext2.oldEq a ha2
  · intro st st'' fuel _ _
    rfl
  · intro st k' v rest st1 v1 hv st' hfs hrest ih1 ih2 st'' fuel hfuel hag
    have heq : loadFields st ((k', v) :: rest) = (st', (k', v1) :: hfs) := by
      rw [loadFields, hv]
      dsimp only
      rw [hrest]
    rw [heq] at hag ⊢
    have hext1 := loadVal_ext st v
    have hext2 := (load_spec_all.2.1 st1 rest).1
    rw [hv] at hext1
    rw [hrest] at hext2
    rw [hv] at ih1
    rw [hrest] at ih2
    rw [List.mapM_cons]
    dsimp only
    rw [ih1 st'' fuel (le_trans (Nat.le_max_left _ _) (by simpa [jdepthFields] using hfuel)) ?_,
      ih2 st'' fuel (le_trans (Nat.le_max_right _ _) (by simpa [jdepthFields] using hfuel)) ?_]
    · rfl
    · intro a ha1 ha2
      dsimp only at ha1 ha2
      exact hag a (le_trans hext1.lenLe ha1) ha2
    · intro a ha1 ha2
      dsimp only at ha1 ha2
      refine (hag a ha1 (lt_of_lt_of_le ha2 hext2.lenLe)).trans ?_
      exact hext2.oldEq a ha2

/-! ### C5: applying a patch never disturbs the caller's document -/

theorem quad_eq {α β γ δ : Type _} {a a' : α} {b b' : β} {c c' : γ} {d d' : δ}
    (h : (a, b, c, d) = (a', b', c', d')) : a = a' ∧ b = b' ∧ c = c' ∧ d = d' := by
  injection h with h1 h2
  injection h2 with h2 h3
  injection h3 with h3 h4
  exact ⟨h1, h2, h3, h4⟩

theorem hApplyLoop_frame {n0 : Nat} {base : Store} :
    ∀ (ops : List HOperation) (st : Store) (work : HVal) (i : Nat)
      (st' : Store) (res : HVal) (err : Option JErr) (loc : Nat),
      Frame n0 base st → ValHigh n0 work → (∀ o ∈ ops, ValHigh n0 o.value) →
      hApplyLoop ops st work i = (st', res, err, loc) → Frame n0 base st' := by
  intro ops
  induction ops with
  | nil =>
    intro st work i st' res err loc hf _ _ h
    obtain ⟨rfl, -, -, -⟩ := quad_eq h
    exact hf
  | cons o rest ih =>
    intro st work i st' res err loc hf hw hv h
    rw [hApplyLoop] at h
    cases happ : o.applyOp st work with
    | mk st1 r1 =>
      obtain ⟨res1, e1⟩ := r1
      rw [happ] at h
      obtain ⟨hf1, hr1, _⟩ := HOperation.applyOp_frame hf hw (hv o (by simp)) happ
      cases e1 with
      | some e =>
        obtain ⟨rfl, -, -, -⟩ := quad_eq h
        exact hf1
      | none =>
        exact ih st1 res1 (i + 1) st' res err loc hf1 hr1
          (fun o' ho' => hv o' (List.mem_cons_of_mem o ho')) h

theorem hApplyPatch_frame {n0 : Nat} {ops : List HOperation} {st : Store} {baseV : HVal}
    {st' : Store} {res : HVal} {err : Option JErr} {loc : Nat}
    (hf : Frame n0 st st) (hv : ∀ o ∈ ops, ValHigh n0 o.value)
    (h : hApplyPatch ops st baseV = (st', res, err, loc)) : Frame n0 st st' := by
  rw [hApplyPatch] at h
  cases hclone : HClone st baseV with
  | mk st1 r1 =>
    obtain ⟨work, ec⟩ := r1
    rw [hclone] at h
    obtain ⟨hf1, _, hhigh, hunch⟩ := HClone_frame hf hclone
    cases ec with
    | none => exact hApplyLoop_frame ops st1 work 0 st' res err loc hf1 (hhigh rfl) hv h
    | some e =>
      obtain ⟨rfl, -, -, -⟩ := quad_eq h
      exact hf1

/-- C5: `Patch.apply` deep-clones its input into the working root, and
every subsequent write lands in a cell reachable from that clone, a fresh
allocation, or an operation-value cell — never in a cell of the caller's
document.  Whether application succeeds or fails at any point, the
caller's base value still denotes, cell for cell and at every fuel,
exactly what it denoted before the call, namely the original tree `B`. -/
theorem apply_preserves_base (B : JSON) (pops : List POp)
    (s0 : Store) (baseV : HVal) (s1 : Store) (hops : List HOperation)
    (s2 : Store) (res : HVal) (err : Option JErr) (loc : Nat)
    (h0 : loadVal [] B = (s0, baseV))
    (h1 : loadOps s0 pops = (s1, hops))
    (h2 : hApplyPatch hops s1 baseV = (s2, res, err, loc)) :
    (∀ fuel, denoteF fuel s2 baseV = denoteF fuel s1 baseV) ∧
    (∀ fuel, jdepth B ≤ fuel → denoteF fuel s2 baseV = some B) := by
  have hext0 := loadVal_ext [] B
  have hfresh0 := loadVal_fresh [] B
  rw [h0] at hext0 hfresh0
  have hops_spec := loadOps_spec pops s0
  rw [h1] at hops_spec
  obtain ⟨hext1, hvals⟩ := hops_spec
  have hf1 : Frame s0.length s1 s1 := by
    refine ⟨fun a _ => rfl, ?_, hext1.lenLe⟩
    intro a n ha hn b hb
    exact (hext1.freshRefs a n ha hn b hb).1
  have hvhigh : ∀ o ∈ hops, ValHigh s0.length o.value := by
    intro o ho b hb
    exact (hvals o ho b hb).1
  have hframe : Frame s0.length s1 s2 := hApplyPatch_frame hf1 hvhigh h2
  have hagree : ∀ a, a < s0.length → s2[a]? = s1[a]? := hframe.protEq
  have hagree0 : ∀ a, a < s0.length → s1[a]? = s0[a]? := fun a ha => hext1.oldEq a ha
  have hbase_low : ∀ b ∈ baseV.addrs, b < s0.length := by
    intro b hb
    exact (hfresh0 b hb).2
  constructor
  · intro fuel
    refine denoteF_agree (fun a => a < s0.length) s1 s2 hagree ?_ fuel baseV hbase_low
    intro a n ha hn b hb
    rw [hagree0 a ha] at hn
    exact lt_trans (hext0.freshRefs a n (by simp) hn b hb).2 ha
  · intro fuel hfuel
    have := loadVal_denote [] B s2 fuel hfuel ?_
    · rw [h0] at this
      exact this
    · intro a ha1 ha2
      rw [h0] at ha2 ⊢
      dsimp only at ha2 ⊢
      rw [hagree a ha2, hagree0 a ha2]

/-- Witness for `apply_preserves_base`: base `(obj a 5)`, one add of `b`. -/
theorem apply_preserves_base_witness :
    denoteF 1 [.obj [("a", .scalar (.num 5))],
        .obj [("a", .scalar (.num 5)), ("b", .scalar (.num 6))]] (.ref 0) =
      some (.obj [("a", .num 5)]) :=
  (apply_preserves_base (.obj [("a", .num 5)]) [⟨"add", ["b"], none, .num 6⟩]
    [.obj [("a", .scalar (.num 5))]] (.ref 0)
    [.obj [("a", .scalar (.num 5))]] [⟨"add", ["b"], none, .scalar (.num 6)⟩]
    [.obj [("a", .scalar (.num 5))], .obj [("a", .scalar (.num 5)), ("b", .scalar (.num 6))]]
    (.ref 1) none 0 rfl rfl rfl).2 1 (by decide)

/-! ### C8: a copied destination never aliases its source -/

theorem lookupFieldH_setFieldH_self (k : String) (v : HVal) :
    ∀ fields : List (String × HVal), lookupFieldH k (setFieldH k v fields) = some v := by
  intro fields
  induction fields with
  | nil => simp [setFieldH, lookupFieldH]
  | cons kv rest ih =>
    obtain ⟨k', v'⟩ := kv
    rw [setFieldH]
    by_cases hk : k' = k
    · rw [if_pos hk, lookupFieldH, if_pos rfl]
    · rw [if_neg hk, lookupFieldH, if_neg hk, ih]

theorem lookupFieldH_setFieldH_ne {k k' : String} (hne : k' ≠ k) (v : HVal) :
    ∀ fields : List (String × HVal),
      lookupFieldH k (setFieldH k' v fields) = lookupFieldH k fields := by
  intro fields
  induction fields with
  | nil => simp [setFieldH, lookupFieldH, hne]
  | cons kv rest ih =>
    obtain ⟨k'', v''⟩ := kv
    rw [setFieldH]
    by_cases hk : k'' = k'
    · rw [if_pos hk, lookupFieldH, if_neg hne, lookupFieldH, hk, if_neg hne]
    · rw [if_neg hk, lookupFieldH, lookupFieldH]
      by_cases hk2 : k'' = k
      · rw [if_pos hk2, if_pos hk2]
      · rw [if_neg hk2, if_neg hk2, ih]

/-- On a store whose cells reference only strictly earlier cells, the
denotation of an in-range value succeeds whenever the fuel exceeds its
addresses. -/
theorem denoteF_total {st : Store}
    (hrd : ∀ (a : Nat) (n : HNode), st[a]? = some n → ∀ b ∈ n.refs, b < a) :
    ∀ (k : Nat) (v : HVal), (∀ b ∈ v.addrs, b < k ∧ b < st.length) →
      ∃ t, denoteF k st v = some t := by
  intro k
  induction k with
  | zero =>
    intro v hv
    cases v with
    | scalar s => exact ⟨s.toJSON, rfl⟩
    | ref a => exact absurd (hv a (by simp [HVal.addrs])).1 (by omega)
  | succ k ih =>
    have harr : ∀ ws : List HVal,
        (∀ w ∈ ws, ∀ b ∈ w.addrs, b < k ∧ b < st.length) →
        ∃ l, ws.mapM (denoteF k st) = some l := by
      intro ws
      induction ws with
      | nil => intro _; exact ⟨[], rfl⟩
      | cons w ws ihw =>
        intro hmem
        obtain ⟨t, ht⟩ := ih w (hmem w (List.mem_cons_self w ws))
        obtain ⟨l, hl⟩ := ihw fun w2 hw2 => hmem w2 (List.mem_cons_of_mem w hw2)
        exact ⟨t :: l, by rw [List.mapM_cons, ht, hl]; rfl⟩
    have hobj : ∀ fs : List (String × HVal),
        (∀ kv ∈ fs, ∀ b ∈ (Prod.snd kv).addrs, b < k ∧ b < st.length) →
        ∃ l, (fs.mapM fun kv => (denoteF k st kv.2).map fun j => (kv.1, j)) = some l := by
      intro fs
      induction fs with
      | nil => intro _; exact ⟨[], rfl⟩
      | cons kv fs ihf =>
        intro hmem
        obtain ⟨t, ht⟩ := ih kv.2 (hmem kv (List.mem_cons_self kv fs))
        obtain ⟨l, hl⟩ := ihf fun kv2 hkv2 => hmem kv2 (List.mem_cons_of_mem kv hkv2)
        refine ⟨(kv.1, t) :: l, ?_⟩
        rw [List.mapM_cons, ht, hl]
        rfl
    intro v hv
    cases v with
    | scalar s => exact ⟨s.toJSON, rfl⟩
    | ref a =>
      obtain ⟨hak, hast⟩ := hv a (by simp [HVal.addrs])
      cases hn : st[a]? with
      | none =>
        rw [List.getElem?_eq_none_iff] at hn
        omega
      | some n =>
        have hrefs : ∀ b ∈ n.refs, b < k ∧ b < st.length := by
          intro b hb
          have hba := hrd a n hn b hb
          omega
        cases n with
        | arr elems =>
          obtain ⟨l, hl⟩ := harr elems fun w hw b hb => hrefs b (mem_refs_arr hw hb)
          refine ⟨.arr l, ?_⟩
          rw [denoteF, hn]
          dsimp only
          rw [hl]
          rfl
        | obj fields =>
          obtain ⟨l, hl⟩ := hobj fields fun kv hkv b hb => hrefs b (mem_refs_obj hkv hb)
          refine ⟨.obj l, ?_⟩
          rw [denoteF, hn]
          dsimp only
          rw [hl]
          rfl

/-- `HReplace` at a nonempty pointer returns the root unchanged and
either leaves the store untouched (on failure) or writes exactly one
cell: the parent container it resolved. -/
theorem HReplace_cons_writes {st : Store} {s : String} {rest : List String}
    {root val : HVal} {st' : Store} {root' : HVal} {err : Option JErr}
    (h : HReplace st (s :: rest) root val = (st', root', err)) :
    root' = root ∧ (st' = st ∨ ∃ a n, HGet st ((s :: rest).dropLast) root = .ok (.ref a) ∧
      st' = st.set a n) := by
  rw [HReplace.eq_def] at h
  dsimp only at h
  cases hget : HGet st ((s :: rest).dropLast) root with
  | error e =>
    rw [hget] at h
    obtain ⟨rfl, rfl, rfl⟩ := triple_eq h
    exact ⟨rfl, Or.inl rfl⟩
  | ok container =>
    rw [hget] at h
    cases container with
    | scalar sc =>
      obtain ⟨rfl, rfl, rfl⟩ := triple_eq h
      exact ⟨rfl, Or.inl rfl⟩
    | ref a =>
      dsimp only at h
      cases hn : st[a]? with
      | none =>
        rw [hn] at h
        obtain ⟨rfl, rfl, rfl⟩ := triple_eq h
        exact ⟨rfl, Or.inl rfl⟩
      | some n =>
        rw [hn] at h
        cases n with
        | obj fields =>
          dsimp only at h
          cases hl : lookupFieldH (s :: rest).getLast! fields with
          | none =>
            rw [hl] at h
            obtain ⟨rfl, rfl, rfl⟩ := triple_eq h
            exact ⟨rfl, Or.inl rfl⟩
          | some w =>
            rw [hl] at h
            obtain ⟨rfl, rfl, rfl⟩ := triple_eq h
            exact ⟨rfl, Or.inr ⟨a, _, rfl, rfl⟩⟩
        | arr elems =>
          dsimp only at h
          cases ho : normalizeOffset (s :: rest).getLast! elems.length with
          | error e =>
            rw [ho] at h
            obtain ⟨rfl, rfl, rfl⟩ := triple_eq h
            exact ⟨rfl, Or.inl rfl⟩
          | ok idx =>
            rw [ho] at h
            obtain ⟨rfl, rfl, rfl⟩ := triple_eq h
            exact ⟨rfl, Or.inr ⟨a, _, rfl, rfl⟩⟩


/-! ### C8: a copied destination never aliases its source (main theorem) -/

theorem applyOp_copy_eq (p fp : Pointer) (v : HVal) (st : Store) (d : HVal) :
    HOperation.applyOp ⟨"copy", p, some fp, v⟩ st d = HCopy st fp d p := rfl

theorem applyOp_replace_eq (p : Pointer) (fp : Option Pointer) (v : HVal) (st : Store) (d : HVal) :
    HOperation.applyOp ⟨"replace", p, fp, v⟩ st d = HReplace st p d v := rfl

theorem normalizeOffset_foo (bound : Nat) :
    normalizeOffset "foo" bound = .error .atoiError := rfl

theorem HPut_single_obj {st : Store} {r : Nat} {fields : List (String × HVal)}
    (sel : String) (val : HVal) (hr : st[r]? = some (.obj fields)) :
    HPut st [sel] (.ref r) val =
      (st.set r (.obj (setFieldH sel val fields)), .ref r, none) := by
  rw [HPut.eq_def]
  dsimp only
  rw [show HGet st (List.dropLast [sel]) (.ref r) = .ok (.ref r) from rfl]
  dsimp only
  rw [hr]
  dsimp only
  rw [show ([sel] : List String).getLast! = sel from rfl]

/-- C8: for every document containing a value at /foo, applying a copy
operation with from=/foo and path=/bar followed by a replace operation at
a path strictly underneath /bar leaves the value at /foo deep-equal to
its value before the replace: the copy first succeeds and keeps the root,
the replace keeps the root, /foo still resolves to the very same value
afterwards, and that value denotes the same pure tree at every fuel
before and after the replace — the copied destination never aliases the
source, because Copy deep-clones into fresh cells and the replace writes
only a cell of the clone (or fails without writing). -/
theorem copy_then_replace_keeps_source
    (B : JSON) (q : Pointer) (val : HVal) (sB : Store) (root fooV : HVal)
    (s1 s2 : Store) (root1 root2 : HVal) (e1 e2 : Option JErr)
    (h0 : loadVal [] B = (sB, root))
    (hfoo : HGet sB ["foo"] root = .ok fooV)
    (hq : q ≠ [])
    (hcopy : HOperation.applyOp ⟨"copy", ["bar"], some ["foo"], .scalar .null⟩ sB root
      = (s1, root1, e1))
    (hrep : HOperation.applyOp ⟨"replace", "bar" :: q, none, val⟩ s1 root1
      = (s2, root2, e2)) :
    e1 = none ∧ root1 = root ∧ root2 = root ∧
    HGet s1 ["foo"] root1 = .ok fooV ∧
    HGet s2 ["foo"] root2 = .ok fooV ∧
    ∀ fuel, denoteF fuel s2 fooV = denoteF fuel s1 fooV := by
  have hextB : StoreExt [] sB := by
    have h := loadVal_ext [] B
    rw [h0] at h
    exact h
  have hrootFresh : ValFresh [] sB root := by
    have h := loadVal_fresh [] B
    rw [h0] at h
    exact h
  have hrd : ∀ (a : Nat) (n : HNode), sB[a]? = some n → ∀ b ∈ n.refs, b < a :=
    fun a n hn b hb => (hextB.freshRefs a n (by simp) hn b hb).2
  rw [HGet.eq_def] at hfoo
  cases root with
  | scalar s =>
    dsimp only at hfoo
    exact Except.noConfusion hfoo
  | ref r =>
    dsimp only at hfoo
    cases hn : sB[r]? with
    | none =>
      rw [hn] at hfoo
      exact Except.noConfusion hfoo
    | some n =>
      rw [hn] at hfoo
      cases n with
      | arr elems =>
        dsimp only at hfoo
        rw [normalizeOffset_foo] at hfoo
        exact Except.noConfusion hfoo
      | obj fields =>
        dsimp only at hfoo
        cases hlf : lookupFieldH "foo" fields with
        | none =>
          rw [hlf] at hfoo
          exact Except.noConfusion hfoo
        | some w =>
          rw [hlf] at hfoo
          dsimp only at hfoo
          rw [Except.ok.inj hfoo] at hlf
          have hrB : r < sB.length := (hrootFresh r (by simp [HVal.addrs])).2
          have hfooLow : ∀ b ∈ fooV.addrs, b < r := fun b hb =>
            hrd r _ hn b (@mem_vals_refs _ _ (.obj fields)
              (by simpa [HNode.vals] using lookupFieldH_mem hlf) hb)
          obtain ⟨t, hd⟩ := denoteF_total hrd (sB.length + 1) fooV
            (fun b hb => ⟨by have := hfooLow b hb; omega, by have := hfooLow b hb; omega⟩)
          rcases hlv : loadVal sB t with ⟨cloneSt, cloneV⟩
          have hextC : StoreExt sB cloneSt := by
            have h := loadVal_ext sB t
            rw [hlv] at h
            exact h
          have hcloneHigh : ValHigh sB.length cloneV := by
            have h := loadVal_fresh sB t
            rw [hlv] at h
            exact fun b hb => (h b hb).1
          have hcloneEq : HClone sB fooV = (cloneSt, cloneV, none) := by
            rw [HClone.eq_def, hd]
            dsimp only
            rw [hlv]
          have hgetB : HGet sB ["foo"] (.ref r) = .ok fooV := by
            rw [HGet.eq_def]
            dsimp only
            rw [hn]
            dsimp only
            rw [hlf]
            rfl
          have hcsr : cloneSt[r]? = some (.obj fields) := by
            rw [hextC.oldEq r hrB, hn]
          rw [applyOp_copy_eq, HCopy.eq_def, hgetB] at hcopy
          dsimp only at hcopy
          rw [hcloneEq] at hcopy
          dsimp only at hcopy
          rw [HPut_single_obj "bar" cloneV hcsr] at hcopy
          obtain ⟨hs1, hroot1, he1⟩ := triple_eq hcopy
          subst hs1
          subst hroot1
          subst he1
          have hlenC : sB.length ≤ cloneSt.length := hextC.lenLe
          have hs1r : (cloneSt.set r (.obj (setFieldH "bar" cloneV fields)))[r]? =
              some (.obj (setFieldH "bar" cloneV fields)) :=
            List.getElem?_set_self (by omega)
          have hg1 : HGet (cloneSt.set r (.obj (setFieldH "bar" cloneV fields))) ["foo"]
              (.ref r) = .ok fooV := by
            rw [HGet.eq_def]
            dsimp only
            rw [hs1r]
            dsimp only
            rw [lookupFieldH_setFieldH_ne (show "bar" ≠ "foo" by decide) cloneV fields, hlf]
            rfl
          rw [applyOp_replace_eq] at hrep
          obtain ⟨x, q', rfl⟩ : ∃ x q', q = x :: q' := by
            cases q with
            | nil => exact absurd rfl hq
            | cons x q' => exact ⟨x, q', rfl⟩
          obtain ⟨hroot2, hwrite⟩ := HReplace_cons_writes hrep
          subst hroot2
          rcases hwrite with rfl | ⟨c, nn, hgetc, rfl⟩
          · exact ⟨rfl, rfl, rfl, hg1, hg1, fun _ => rfl⟩
          · rw [show ("bar" :: x :: q').dropLast = "bar" :: (x :: q').dropLast from rfl,
              HGet.eq_def] at hgetc
            dsimp only at hgetc
            rw [hs1r] at hgetc
            dsimp only at hgetc
            rw [lookupFieldH_setFieldH_self "bar" cloneV fields] at hgetc
            dsimp only at hgetc
            have hframe : Frame sB.length (cloneSt.set r (.obj (setFieldH "bar" cloneV fields)))
                (cloneSt.set r (.obj (setFieldH "bar" cloneV fields))) := by
              refine ⟨fun a _ => rfl, ?_, ?_⟩
              · intro a m ha hm b hb
                rw [List.getElem?_set_ne (show r ≠ a by omega)] at hm
                exact (hextC.freshRefs a m ha hm b hb).1
              · rw [List.length_set]
                exact hlenC
            have hcHigh : sB.length ≤ c :=
              HGet_high hframe _ cloneV (.ref c) hcloneHigh hgetc c (by simp [HVal.addrs])
            refine ⟨rfl, rfl, rfl, hg1, ?_, ?_⟩
            · rw [HGet.eq_def]
              dsimp only
              rw [List.getElem?_set_ne (show c ≠ r by omega), hs1r]
              dsimp only
              rw [lookupFieldH_setFieldH_ne (show "bar" ≠ "foo" by decide) cloneV fields, hlf]
              rfl
            · intro fuel
              refine denoteF_agree (fun b => b < r) _ _ ?_ ?_ fuel fooV hfooLow
              · intro a ha
                exact List.getElem?_set_ne (show c ≠ a by omega)
              · intro a m ha hm b hb
                rw [List.getElem?_set_ne (show r ≠ a by omega), hextC.oldEq a (by omega)] at hm
                have := hrd a m hm b hb
                omega

/-- Witness for C8 on the document obj foo: obj y: 1, bar: 2, copying
/foo over /bar and then replacing /bar/y with 7: afterwards /foo still
resolves to cell 0 and denotes the unchanged subtree. -/
theorem copy_then_replace_keeps_source_witness :
    HGet [HNode.obj [("y", .scalar (.num 1))],
      .obj [("foo", .ref 0), ("bar", .ref 2)],
      .obj [("y", .scalar (.num 7))]] ["foo"] (.ref 1) = .ok (.ref 0) ∧
    denoteF 2 [HNode.obj [("y", .scalar (.num 1))],
      .obj [("foo", .ref 0), ("bar", .ref 2)],
      .obj [("y", .scalar (.num 7))]] (.ref 0) =
    denoteF 2 [HNode.obj [("y", .scalar (.num 1))],
      .obj [("foo", .ref 0), ("bar", .ref 2)],
      .obj [("y", .scalar (.num 1))]] (.ref 0) :=
  have h := copy_then_replace_keeps_source
    (.obj [("foo", .obj [("y", .num 1)]), ("bar", .num 2)]) ["y"] (.scalar (.num 7))
    [.obj [("y", .scalar (.num 1))], .obj [("foo", .ref 0), ("bar", .scalar (.num 2))]]
    (.ref 1) (.ref 0)
    [.obj [("y", .scalar (.num 1))], .obj [("foo", .ref 0), ("bar", .ref 2)],
      .obj [("y", .scalar (.num 1))]]
    [.obj [("y", .scalar (.num 1))], .obj [("foo", .ref 0), ("bar", .ref 2)],
      .obj [("y", .scalar (.num 7))]]
    (.ref 1) (.ref 1) none none
    rfl rfl (by decide) rfl rfl
  ⟨h.2.2.2.2.1, h.2.2.2.2.2 2⟩

end Jsonpatch
